import Mathlib

/-!
The ingestion/publish core of `pkg/publisher/publisher.go`

A shallow embedding of the Go package `publisher`:

* the two compiled patterns `generalFile` and `resolvedFile` and the routing
  step of `Publisher.http` that applies them to `req.URL.Path`;
* `New`, `ensureTopic`, `Publish` and `http`, as state-passing functions over
  the `Publisher` struct and an abstract Pub/Sub broker, each returning the
  calls it made as a list of `Event`s.

Library behaviour the package relies on is embedded as far as the package
observes it: `regexp.FindStringSubmatch` (leftmost match, the one a
backtracking search finds first), `bufio.Scanner` with the `ScanLines` split
function and its default token limit, `url.Values.Get`.

Execution is sequential: one call runs to completion before the next starts.
A request body is a finite byte sequence that is read without an I/O error;
how the reader signals its end is a field of the request.
Logging, the `context.Context` arguments and the registration of the handler
with the `ServeMux` have no effect on what is stated here and are left out.
-/

namespace CdcPubsub

/-! ## Patterns -/

/-- One instruction of a compiled pattern.  The two patterns of the package are
concatenations of repeated character classes, capture-group boundaries and the
end-of-text assertion, so these three suffice. -/
inductive Inst where
  /-- A character class repeated between `lo` and `hi` times, greedily; `hi = none`
  is unbounded.  A literal or a single class is `rpt 1 (some 1)`. -/
  | rpt (lo : Nat) (hi : Option Nat) (cls : Char → Bool)
  /-- Capture boundary: slot `2 * i` opens group `i`, slot `2 * i + 1` closes it. -/
  | cap (slot : Nat)
  /-- The assertion `$` without the multi-line flag: end of text. -/
  | eot

/-- Whether the instruction is the capture boundary of the given slot. -/
def Inst.isCap (slot : Nat) : Inst → Bool
  | .cap k => k == slot
  | _ => false

/-- The class `\d`: an ASCII digit. -/
def digit (c : Char) : Bool := decide ('0' ≤ c) && decide (c ≤ '9')

/-- The class `.` without the `s` flag: any character but a newline. -/
def dot (c : Char) : Bool := c != '\n'

/-- The negated class `[^x]`, which in Go also matches a newline. -/
def notChar (x c : Char) : Bool := c != x

/-- A literal character. -/
def lit (x : Char) : Inst := .rpt 1 (some 1) (fun c => c == x)

/-- A single character of a class. -/
def one (cls : Char → Bool) : Inst := .rpt 1 (some 1) cls

/-- The repetition `cls{n}`. -/
def exactly (n : Nat) (cls : Char → Bool) : Inst := .rpt n (some n) cls

/-- The repetition `cls*`. -/
def star (cls : Char → Bool) : Inst := .rpt 0 none cls

/-- The repetition `cls+`. -/
def plus (cls : Char → Bool) : Inst := .rpt 1 none cls

/-- Length of the longest prefix of `s` whose characters are all in the class. -/
def runLen (cls : Char → Bool) (s : List Char) : Nat := (s.takeWhile cls).length

/-- The repetition counts a greedy repeat tries, longest first: from the
longest run available (capped by `hi`) down to `lo`. -/
def counts (lo : Nat) (hi : Option Nat) (run : Nat) : List Nat :=
  let top := match hi with
    | some h => min h run
    | none => run
  ((List.range (top + 1)).reverse).filter (fun k => decide (lo ≤ k))

/-- Backtracking match of a compiled pattern at the start of `s`.  The result
lists, instruction by instruction, the text that instruction consumed. -/
def matchHere : List Inst → List Char → Option (List (List Char))
  | [], _ => some []
  | .rpt lo hi cls :: rest, s =>
    (counts lo hi (runLen cls s)).findSome? fun k =>
      (matchHere rest (s.drop k)).map fun chunks => s.take k :: chunks
  | .cap _ :: rest, s => (matchHere rest s).map fun chunks => [] :: chunks
  | .eot :: rest, s =>
    match s with
    | [] => (matchHere rest []).map fun chunks => [] :: chunks
    | _ :: _ => none

/-- Leftmost match: the first start position, from the left, at which the
pattern matches. -/
def find (prog : List Inst) : List Char → Option (List (List Char))
  | [] => matchHere prog []
  | c :: cs => (matchHere prog (c :: cs)).orElse fun _ => find prog cs

/-- What it means for `chunks` to be a match of the pattern at the start of `s`,
whichever repetition counts were chosen: instruction by instruction, `chunks`
lists a text the instruction accepts, and the texts follow one another in `s`. -/
def Parses : List Inst → List Char → List (List Char) → Prop
  | [], _, chunks => chunks = []
  | .rpt lo hi cls :: rest, s, chunks =>
    ∃ c tail cs, chunks = c :: cs ∧ s = c ++ tail ∧ lo ≤ c.length ∧
      (∀ h, hi = some h → c.length ≤ h) ∧ (∀ x ∈ c, cls x = true) ∧ Parses rest tail cs
  | .cap _ :: rest, s, chunks => ∃ cs, chunks = [] :: cs ∧ Parses rest s cs
  | .eot :: rest, s, chunks => s = [] ∧ ∃ cs, chunks = [] :: cs ∧ Parses rest [] cs

/-- Text of capture group `i` of a match: what the instructions between the two
boundaries of the group consumed. -/
def submatch (prog : List Inst) (chunks : List (List Char)) (i : Nat) : String :=
  let inside := ((prog.zip chunks).dropWhile fun ic => !ic.1.isCap (2 * i)).drop 1
  String.mk ((inside.takeWhile fun ic => !ic.1.isCap (2 * i + 1)).map Prod.snd).flatten

/-- Result of `re.FindStringSubmatch(s)`: `none` for Go's `nil`, else the
function `i ↦ parts[i]` for the capture groups `i ≥ 1`. -/
def findStringSubmatch (prog : List Inst) (s : String) : Option (Nat → String) :=
  (find prog s.data).map fun chunks => submatch prog chunks

/-- Instructions for the shared prefix
`/([^/]*)/(\d{4}-\d{2}-\d{2})/` of both patterns. -/
def datedDir : List Inst :=
  [lit '/', .cap 2, star (notChar '/'), .cap 3, lit '/',
   .cap 4, exactly 4 digit, lit '-', exactly 2 digit, lit '-', exactly 2 digit, .cap 5,
   lit '/']

/-- The pattern
`/([^/]*)/(\d{4}-\d{2}-\d{2})/(\d{33})-(.+)-([^-]+)-([^-]+).ndjson$`. -/
def generalFile : List Inst :=
  datedDir ++
  [.cap 6, exactly 33 digit, .cap 7, lit '-',
   .cap 8, plus dot, .cap 9, lit '-',
   .cap 10, plus (notChar '-'), .cap 11, lit '-',
   .cap 12, plus (notChar '-'), .cap 13,
   one dot, lit 'n', lit 'd', lit 'j', lit 's', lit 'o', lit 'n', .eot]

/-- The pattern `/([^/]*)/(\d{4}-\d{2}-\d{2})/(\d{33).RESOLVED$`.  The brace in
`\d{33)` has no closing brace, so it does not start a repetition: Go's parser
takes `{` as a literal, and group 3 is one digit followed by the text `{33`. -/
def resolvedFile : List Inst :=
  datedDir ++
  [.cap 6, one digit, lit '{', lit '3', lit '3', .cap 7,
   one dot, lit 'R', lit 'E', lit 'S', lit 'O', lit 'L', lit 'V', lit 'E', lit 'D', .eot]

/-- The routing step of `Publisher.http`: the `(topic, table)` pair taken from
`req.URL.Path`, or `none` where the handler answers 404. -/
def route (path : String) : Option (String × String) :=
  match findStringSubmatch resolvedFile path with
  | some parts => some (parts 1, "RESOLVED")
  | none =>
    match findStringSubmatch generalFile path with
    | some parts => some (parts 1, parts 5)
    | none => none

/-! ## Data model -/

/-- A byte of a request body. -/
abbrev Byte := UInt8

/-- A `*pubsub.Topic`: the identity of the Go object and the topic name it refers to. -/
structure Topic where
  id : Nat
  name : String
deriving DecidableEq, Repr

/-- An `error` value: a broker failure, or one wrapped by `errors.Wrapf` with the
message and the topic name it was given. -/
inductive Error where
  | broker (cause : String)
  | wrapf (cause : Error) (message : String) (topic : String)
deriving DecidableEq, Repr

/-- A call the package makes on a collaborator. -/
inductive Event where
  /-- Call of `p.latch.Hold()`. -/
  | hold
  /-- Call of `p.latch.Release()`. -/
  | release
  /-- Call of `w.WriteHeader(code)`. -/
  | writeHeader (code : Nat)
  /-- The first `s.Scan()`, which starts reading `req.Body`. -/
  | readBody
  /-- A call of `ensureTopic`. -/
  | resolve (name : String)
  /-- Call of `temp.Exists(ctx)`. -/
  | topicExists (name : String)
  /-- Call of `p.client.CreateTopic(ctx, topic)`. -/
  | createTopic (name : String)
  /-- Call of `t.Publish(ctx, msg)`, returning the `*pubsub.PublishResult` numbered `result`;
  `data` is what the slice `msg.Data` holds when the call is made. -/
  | publish (t : Topic) (data : List Byte) (attrs : List (String × String)) (result : Nat)
  /-- Call of `future.Get(ctx)` on the result numbered `result`, and whether it returned no error. -/
  | get (result : Nat) (ok : Bool)
deriving DecidableEq, Repr

/-- The Pub/Sub service behind `*pubsub.Client`, as a deterministic machine over
its own state `σ`. -/
structure Broker (σ : Type) where
  /-- Answer of `Topic.Exists`. -/
  topicExists : σ → String → σ × Except Error Bool
  /-- Answer of `Client.CreateTopic`. -/
  createTopic : σ → String → σ × Except Error Unit
  /-- Effect of `Topic.Publish` of a message, whose pending result is numbered by the last argument. -/
  publish : σ → Topic → List Byte → List (String × String) → Nat → σ
  /-- Answer of `PublishResult.Get`: the server-assigned message id, or an error. -/
  get : σ → Nat → σ × Except Error String

/-- What is outside the `Publisher`: the broker and the allocator of object identities. -/
structure World (σ : Type) where
  broker : σ
  nextId : Nat

/-- The `Publisher` struct.  `topics name` is `none` while the map has no entry
for `name`, `some none` for a `maybeTopic` whose `Topic` is nil, and
`some (some t)` for one bound to `t`. -/
structure Publisher where
  keys : List String
  latch : Bool
  topics : String → Option (Option Topic)
  pathPrefixLen : Nat
  topicPrefix : String

/-- The four kinds of `Option` accepted by `New`. -/
inductive PubOption where
  | counter
  | mux (pathPrefix : String)
  | sharedKeys (keys : List String)
  | topicPrefix (value : String)

/-- One iteration of the option loop of `New`. -/
def applyOption (p : Publisher) : PubOption → Publisher
  | .counter => { p with latch := true }
  | .mux pathPrefix => { p with pathPrefixLen := pathPrefix.utf8ByteSize }
  | .sharedKeys keys => { p with keys := keys }
  | .topicPrefix value => { p with topicPrefix := value }

/-- The constructor `New`. -/
def New (options : List PubOption) : Publisher :=
  options.foldl applyOption
    { keys := [], latch := false, topics := fun _ => none, pathPrefixLen := 0, topicPrefix := "" }

/-- Outcome of running a piece of the package: its return value, the state
afterwards, and the calls it made, in order. -/
structure Step (σ : Type) (α : Type) where
  result : α
  pub : Publisher
  world : World σ
  events : List Event

/-- Store `entry` under `name` in `p.mu.topics`. -/
def Publisher.setTopic (p : Publisher) (name : String) (entry : Option Topic) : Publisher :=
  { p with topics := fun n => if n = name then some entry else p.topics n }

/-- The method `ensureTopic`. -/
def ensureTopic {σ : Type} (b : Broker σ) (p : Publisher) (w : World σ) (topic : String) :
    Step σ (Except Error Topic) :=
  let p1 := match p.topics topic with
    | none => p.setTopic topic none
    | some _ => p
  match p.topics topic with
  | some (some t) => ⟨.ok t, p1, w, [.resolve topic]⟩
  | _ =>
    let temp : Topic := ⟨w.nextId, topic⟩
    match b.topicExists w.broker topic with
    | (s, .error err) =>
      ⟨.error (.wrapf err "cold not check existence of %q" topic), p1, ⟨s, w.nextId + 1⟩,
        [.resolve topic, .topicExists topic]⟩
    | (s, .ok true) =>
      ⟨.ok temp, p1.setTopic topic (some temp), ⟨s, w.nextId + 1⟩,
        [.resolve topic, .topicExists topic]⟩
    | (s, .ok false) =>
      match b.createTopic s topic with
      | (s1, .error err) =>
        ⟨.error (.wrapf err "could not create topic %q" topic), p1, ⟨s1, w.nextId + 1⟩,
          [.resolve topic, .topicExists topic, .createTopic topic]⟩
      | (s1, .ok _) =>
        let created : Topic := ⟨w.nextId + 1, topic⟩
        ⟨.ok created, p1.setTopic topic (some created), ⟨s1, w.nextId + 2⟩,
          [.resolve topic, .topicExists topic, .createTopic topic]⟩

/-- The topic name `Publish` resolves: its parameter `table` behind the configured
prefix, if any.  `http` passes the routed topic for `table`, so the prefix goes on
the name of the broker topic; the attribute `table` of a message is never prefixed
(the comment of `WithTopicPrefix` speaks of the table name). -/
def topicName (p : Publisher) (table : String) : String :=
  if p.topicPrefix != "" then p.topicPrefix ++ table else table

/-- The method `Publish`; the result is the number of the `*pubsub.PublishResult`. -/
def Publish {σ : Type} (b : Broker σ) (p : Publisher) (w : World σ) (table : String)
    (data : List Byte) (attrs : List (String × String)) : Step σ (Except Error Nat) :=
  let r := ensureTopic b p w (topicName p table)
  match r.result with
  | .error err => ⟨.error err, r.pub, r.world, r.events⟩
  | .ok t =>
    let future := r.world.nextId
    ⟨.ok future, r.pub, ⟨b.publish r.world.broker t data attrs future, future + 1⟩,
      r.events ++ [.publish t data attrs future]⟩

/-! ## Reading the body -/

/-- The constant `bufio.MaxScanTokenSize`, the buffer limit of a `bufio.Scanner`
made by `bufio.NewScanner`. -/
def maxScanTokenSize : Nat := 64 * 1024

/-- The helper `dropCR` of `bufio.ScanLines`. -/
def dropCR (data : List Byte) : List Byte :=
  if data.getLast? = some 13 then data.dropLast else data

/-- The lines `bufio.ScanLines` cuts the input into, each without its newline
and before `dropCR`, and whether a newline ends the line: `cur` is the line being
read.  Input left over at the end is a line if it is not empty. -/
def rawLines (cur : List Byte) : List Byte → List (List Byte × Bool)
  | [] => if cur = [] then [] else [(cur, false)]
  | x :: rest => if x = 10 then (cur, true) :: rawLines [] rest else rawLines (cur ++ [x]) rest

/-- Whether the scanner can yield a line.  The buffer holds `maxScanTokenSize`
bytes at most, and `Scan` gives up with `ErrTooLong` when the buffer is full and
holds no token.  A line ended by a newline needs room for the newline.  A last
line without a newline is cut only once the end of input is seen: it may fill the
buffer if the reader reports `io.EOF` together with its last bytes, and needs one
byte of room if the reader reports it on a read of its own. -/
def fits (eofWithData : Bool) (line : List Byte × Bool) : Bool :=
  if line.2 || !eofWithData then decide (line.1.length < maxScanTokenSize)
  else decide (line.1.length ≤ maxScanTokenSize)

/-- The tokens that successive `s.Scan()` calls yield before `Scan` returns
false.  At the first line that does not fit, `Scan` stops with `ErrTooLong`,
which `http` does not look at. -/
def scan (eofWithData : Bool) (body : List Byte) : List (List Byte) :=
  ((rawLines [] body).takeWhile (fits eofWithData)).map fun line => dropCR line.1

/-! ## The handler -/

/-- An incoming request: `req.URL.Path`, the pairs of `req.URL.Query()` in the
order they appear, the content of `req.Body`, and whether `req.Body.Read` returns
`io.EOF` together with the last bytes of the body (as `net/http` does for a body
of known length) rather than on a read of its own. -/
structure Request where
  path : String
  query : List (String × String)
  body : List Byte
  eofWithData : Bool

/-- The method `url.Values.Get`: the first value of the key, or `""`. -/
def queryGet (query : List (String × String)) (key : String) : String :=
  match query.find? fun kv => kv.1 == key with
  | some kv => kv.2
  | none => ""

/-- The scan loop of `http`: publish each token; stop at the first error of
`Publish`.  The result is the list `futures`, or the error `err` is left at.
A token stands for the bytes `s.Bytes()` holds when `Publish` is called.  In Go
that slice is a view of the scanner's buffer, which later `Scan` calls overwrite;
what the Pub/Sub client reads from the slice when it sends the message later is
not part of this embedding, and nothing below speaks of it. -/
def submitAll {σ : Type} (b : Broker σ) (topic : String) (attrs : List (String × String)) :
    List (List Byte) → Publisher → World σ → List Nat → Step σ (Except Error (List Nat))
  | [], p, w, futures => ⟨.ok futures, p, w, []⟩
  | token :: rest, p, w, futures =>
    let r := Publish b p w topic token attrs
    match r.result with
    | .error err => ⟨.error err, r.pub, r.world, r.events⟩
    | .ok future =>
      let r1 := submitAll b topic attrs rest r.pub r.world (futures ++ [future])
      ⟨r1.result, r1.pub, r1.world, r.events ++ r1.events⟩

/-- The loop of `http` over `futures`; `err` is the handler's variable `err`. -/
def awaitAll {σ : Type} (b : Broker σ) :
    List Nat → σ → Option Error → σ × Option Error × List Event
  | [], s, err => (s, err, [])
  | future :: rest, s, err =>
    match b.get s future with
    | (s1, .ok _) =>
      let r := awaitAll b rest s1 err
      (r.1, r.2.1, .get future true :: r.2.2)
    | (s1, .error ferr) =>
      let r := awaitAll b rest s1 (if err.isSome then some ferr else err)
      (r.1, r.2.1, .get future false :: r.2.2)

/-- The deferred function of `http` that writes the status. -/
def statusOf (err : Option Error) : Nat :=
  if err.isNone then 201 else 500

/-- The shared-key gate of `http`: whether the request is turned away with 401. -/
def unauthorized (p : Publisher) (req : Request) : Bool :=
  decide (p.keys.length > 0) &&
    (queryGet req.query "sharedKey" == "" || !p.keys.contains (queryGet req.query "sharedKey"))

/-- The part of `http` after the latch is held; the result is the status written. -/
def serve {σ : Type} (b : Broker σ) (p : Publisher) (w : World σ) (req : Request) : Step σ Nat :=
  if unauthorized p req then
    ⟨401, p, w, [.writeHeader 401]⟩
  else
    match route req.path with
    | none => ⟨404, p, w, [.writeHeader 404]⟩
    | some (topic, table) =>
      let attrs := [("path", req.path), ("table", table)]
      let r := submitAll b topic attrs (scan req.eofWithData req.body) p w []
      match r.result with
      | .error err =>
        ⟨statusOf (some err), r.pub, r.world,
          .readBody :: r.events ++ [.writeHeader (statusOf (some err))]⟩
      | .ok futures =>
        let a := awaitAll b futures r.world.broker none
        ⟨statusOf a.2.1, r.pub, ⟨a.1, r.world.nextId⟩,
          .readBody :: r.events ++ a.2.2 ++ [.writeHeader (statusOf a.2.1)]⟩

/-- The handler `Publisher.http`; the result is the status written. -/
def http {σ : Type} (b : Broker σ) (p : Publisher) (w : World σ) (req : Request) : Step σ Nat :=
  let r := serve b p w req
  if p.latch then ⟨r.result, r.pub, r.world, .hold :: r.events ++ [.release]⟩ else r

/-! ## Reading a trace of calls -/

/-- The status codes written, in order. -/
def statuses (events : List Event) : List Nat :=
  events.filterMap fun
    | .writeHeader code => some code
    | _ => none

/-- The names `ensureTopic` was called with, in order. -/
def resolutions (events : List Event) : List String :=
  events.filterMap fun
    | .resolve name => some name
    | _ => none

/-- The broker calls of topic resolution, `Exists` and `CreateTopic`, in order. -/
def lookups (events : List Event) : List Event :=
  events.filter fun
    | .topicExists _ => true
    | .createTopic _ => true
    | _ => false

/-- The publish calls, in order: topic instance, payload and attributes. -/
def publishes (events : List Event) : List (Topic × List Byte × List (String × String)) :=
  events.filterMap fun
    | .publish t data attrs _ => some (t, data, attrs)
    | _ => none

/-- The pending results handed out by publish calls, in order. -/
def submitted (events : List Event) : List Nat :=
  events.filterMap fun
    | .publish _ _ _ result => some result
    | _ => none

/-- The pending results whose outcome was awaited, in order. -/
def awaited (events : List Event) : List Nat :=
  events.filterMap fun
    | .get result _ => some result
    | _ => none

/-- Whether the event is a status write. -/
def Event.isWriteHeader : Event → Bool
  | .writeHeader _ => true
  | _ => false

/-- A run of `ensureTopic` calls, one after another, for the given names. -/
def ensureEach {σ : Type} (b : Broker σ) : List String → Publisher → World σ → Publisher × World σ
  | [], p, w => (p, w)
  | name :: rest, p, w =>
    ensureEach b rest (ensureTopic b p w name).pub (ensureTopic b p w name).world

/-! ## Sample brokers -/

/-- A broker that never fails; its state is the list of topics that exist. -/
def steadyBroker : Broker (List String) where
  topicExists s name := (s, .ok (s.contains name))
  createTopic s name := (name :: s, .ok ())
  publish s _ _ _ _ := s
  get s result := (s, .ok (toString result))

/-- A broker none of whose topics exists beforehand and whose first `n` calls of
`Exists` or `CreateTopic` fail, `n` being its state. -/
def flakyBroker : Broker Nat where
  topicExists
    | 0, _ => (0, .ok false)
    | n + 1, _ => (n, .error (.broker "unavailable"))
  createTopic
    | 0, _ => (0, .ok ())
    | n + 1, _ => (n, .error (.broker "unavailable"))
  publish s _ _ _ _ := s
  get s result := (s, .ok (toString result))

/-- A broker that accepts every message and then fails to deliver the one whose
pending result has the number held in its state. -/
def lossyBroker : Broker Nat where
  topicExists s _ := (s, .ok true)
  createTopic s _ := (s, .ok ())
  publish s _ _ _ _ := s
  get s result := (s, if result = s then .error (.broker "deadline exceeded") else .ok (toString result))


/-! ## Path shapes -/

/-- A text of exactly `n` ASCII digits. -/
def digits (n : Nat) (s : String) : Prop := s.data.length = n ∧ ∀ c ∈ s.data, digit c = true

instance (n : Nat) (s : String) : Decidable (digits n s) := by
  unfold digits
  infer_instance

/-- The segments of a general data file path
`/<topic>/<YYYY-MM-DD>/<33-digit-id>-<uuid>-<node>-<ext>.ndjson`. -/
structure GeneralPath where
  topic : String
  year : String
  month : String
  day : String
  id : String
  uuid : String
  node : String
  ext : String

/-- The path spelled out. -/
def GeneralPath.path (g : GeneralPath) : String :=
  "/" ++ g.topic ++ "/" ++ g.year ++ "-" ++ g.month ++ "-" ++ g.day ++ "/" ++ g.id ++ "-" ++
    g.uuid ++ "-" ++ g.node ++ "-" ++ g.ext ++ ".ndjson"

/-- The segments have the form the shape asks for: a topic without `/`, a date and
an id of digits, a non-empty uuid on one line, and a non-empty node and extension
without `-`. -/
def GeneralPath.WellFormed (g : GeneralPath) : Prop :=
  '/' ∉ g.topic.data ∧ digits 4 g.year ∧ digits 2 g.month ∧ digits 2 g.day ∧ digits 33 g.id ∧
    g.uuid.data ≠ [] ∧ '\n' ∉ g.uuid.data ∧ g.node.data ≠ [] ∧ '-' ∉ g.node.data ∧
    g.ext.data ≠ [] ∧ '-' ∉ g.ext.data

instance (g : GeneralPath) : Decidable g.WellFormed := by
  unfold GeneralPath.WellFormed
  infer_instance

/-- The segments of a resolved-timestamp marker path
`/<topic>/<YYYY-MM-DD>/<33 digits>.RESOLVED`. -/
structure ResolvedPath where
  topic : String
  year : String
  month : String
  day : String
  id : String

/-- The path spelled out. -/
def ResolvedPath.path (r : ResolvedPath) : String :=
  "/" ++ r.topic ++ "/" ++ r.year ++ "-" ++ r.month ++ "-" ++ r.day ++ "/" ++ r.id ++ ".RESOLVED"

/-- The segments have the form the shape asks for. -/
def ResolvedPath.WellFormed (r : ResolvedPath) : Prop :=
  '/' ∉ r.topic.data ∧ digits 4 r.year ∧ digits 2 r.month ∧ digits 2 r.day ∧ digits 33 r.id

instance (r : ResolvedPath) : Decidable r.WellFormed := by
  unfold ResolvedPath.WellFormed
  infer_instance

/-- A well-formed general data file path with the given node segment. -/
def sampleFile (node : String) : GeneralPath :=
  ⟨"t", "2020", "01", "01", "000000000000000000000000000000000", "u", node, "e"⟩

/-- A well-formed resolved-timestamp marker path. -/
def sampleMarker : ResolvedPath :=
  ⟨"t", "2020", "01", "01", "000000000000000000000000000000000"⟩

/-! ## Sample requests -/

/-- A body of three lines, each ended by a newline: `a`, then 65536 times `a`,
then `b`. -/
def longLineBody : List Byte := [97, 10] ++ (List.replicate maxScanTokenSize 97 ++ [10, 98, 10])

/-- A request for a general data file whose body is `longLineBody`. -/
def longLineRequest : Request :=
  ⟨"/v1/t/2020-01-01/000000000000000000000000000000000-u-n-e.ndjson", [], longLineBody, true⟩

/-- The same request with the first line of `longLineBody` as its whole body. -/
def firstLineRequest : Request :=
  ⟨"/v1/t/2020-01-01/000000000000000000000000000000000-u-n-e.ndjson", [], [97, 10], true⟩

/-- A request for a general data file with the two records `a` and `b`. -/
def twoRecordRequest : Request :=
  ⟨"/v1/t/2020-01-01/000000000000000000000000000000000-u-n-e.ndjson", [], [97, 10, 98, 10], true⟩

/-! ## Topic registry -/

section Registry

variable {σ : Type}

theorem ensureTopic_bound (b : Broker σ) (p : Publisher) (w : World σ) (name : String) (t : Topic)
    (h : p.topics name = some (some t)) :
    ensureTopic b p w name = ⟨.ok t, p, w, [.resolve name]⟩ := by
  simp [ensureTopic, h]

theorem ensureTopic_ok_binds (b : Broker σ) (p : Publisher) (w : World σ) (name : String)
    (t : Topic) (h : (ensureTopic b p w name).result = .ok t) :
    (ensureTopic b p w name).pub.topics name = some (some t) := by
  rcases hp : p.topics name with _ | _ | t0 <;>
  rcases he : b.topicExists w.broker name with ⟨s, e | _ | _⟩ <;>
  rcases hc : b.createTopic s name with ⟨s1, e1 | u⟩ <;>
  simp_all [ensureTopic, Publisher.setTopic]

theorem ensureTopic_other (b : Broker σ) (p : Publisher) (w : World σ) (name other : String)
    (h : other ≠ name) :
    (ensureTopic b p w name).pub.topics other = p.topics other := by
  rcases hp : p.topics name with _ | _ | t0 <;>
  rcases he : b.topicExists w.broker name with ⟨s, e | _ | _⟩ <;>
  rcases hc : b.createTopic s name with ⟨s1, e1 | u⟩ <;>
  simp_all [ensureTopic, Publisher.setTopic]

theorem ensureTopic_keeps_bound (b : Broker σ) (p : Publisher) (w : World σ) (name other : String)
    (t : Topic) (h : p.topics name = some (some t)) :
    (ensureTopic b p w other).pub.topics name = some (some t) := by
  by_cases ho : name = other
  · subst ho
    rw [ensureTopic_bound b p w name t h]
    exact h
  · rw [ensureTopic_other b p w other name ho]
    exact h

theorem ensureEach_keeps_bound (b : Broker σ) (names : List String) (p : Publisher) (w : World σ)
    (name : String) (t : Topic) (h : p.topics name = some (some t)) :
    (ensureEach b names p w).1.topics name = some (some t) := by
  induction names generalizing p w with
  | nil => simpa [ensureEach] using h
  | cons other rest ih =>
    simp only [ensureEach]
    exact ih _ _ (ensureTopic_keeps_bound b p w name other t h)

/-- C8: once `ensureTopic` has returned a topic instance for a name, then after any
further run of `ensureTopic` calls (for any names) a call for that name returns the
same instance, makes no `Exists` and no `CreateTopic` call, and leaves the registry
and the broker as they were; the entry of the name stays bound to that instance. -/
theorem ensureTopic_reuses_handle (b : Broker σ) (p : Publisher) (w : World σ) (name : String)
    (t : Topic) (later : List String)
    (h : (ensureTopic b p w name).result = .ok t) :
    let first := ensureTopic b p w name
    let st := ensureEach b later first.pub first.world
    ensureTopic b st.1 st.2 name = ⟨.ok t, st.1, st.2, [.resolve name]⟩ ∧
      lookups (ensureTopic b st.1 st.2 name).events = [] ∧
      st.1.topics name = some (some t) := by
  intro first st
  have hb : st.1.topics name = some (some t) :=
    ensureEach_keeps_bound b later _ _ name t (ensureTopic_ok_binds b p w name t h)
  refine ⟨ensureTopic_bound b _ _ name t hb, ?_, hb⟩
  rw [ensureTopic_bound b _ _ name t hb]
  rfl

theorem ensureTopic_reuses_handle_witness :
    (ensureTopic steadyBroker (New []) ⟨[], 0⟩ "orders").result = .ok ⟨1, "orders"⟩ ∧
    (let first := ensureTopic steadyBroker (New []) ⟨[], 0⟩ "orders"
     let st := ensureEach steadyBroker ["users", "orders", "items"] first.pub first.world
     ensureTopic steadyBroker st.1 st.2 "orders" = ⟨.ok ⟨1, "orders"⟩, st.1, st.2, [.resolve "orders"]⟩ ∧
      lookups (ensureTopic steadyBroker st.1 st.2 "orders").events = [] ∧
      st.1.topics "orders" = some (some ⟨1, "orders"⟩)) :=
  ⟨rfl, ensureTopic_reuses_handle steadyBroker (New []) ⟨[], 0⟩ "orders" ⟨1, "orders"⟩
    ["users", "orders", "items"] rfl⟩

theorem ensureEach_other (b : Broker σ) (others : List String) (p : Publisher) (w : World σ)
    (name : String) (h : name ∉ others) :
    (ensureEach b others p w).1.topics name = p.topics name := by
  induction others generalizing p w with
  | nil => rfl
  | cons other rest ih =>
    simp only [ensureEach]
    rw [ih _ _ (fun hm => h (List.mem_cons_of_mem _ hm)),
      ensureTopic_other b p w other name (fun he => h (he ▸ List.mem_cons_self _ _))]

/-- A call of `ensureTopic` for a name whose entry is present and unbound asks the
broker `Exists`, and `CreateTopic` if the topic does not exist; it binds a new
instance exactly when the broker answers without error. -/
theorem ensureTopic_unbound (b : Broker σ) (p : Publisher) (w : World σ) (name : String)
    (h : p.topics name = some none) :
    (ensureTopic b p w name).events.take 2 = [.resolve name, .topicExists name] ∧
    (∀ s1 e, b.topicExists w.broker name = (s1, .error e) →
      (∃ err, (ensureTopic b p w name).result = .error err) ∧
        (ensureTopic b p w name).pub.topics name = some none ∧
        (ensureTopic b p w name).world.broker = s1) ∧
    (∀ s1, b.topicExists w.broker name = (s1, .ok true) →
      (ensureTopic b p w name).result = .ok ⟨w.nextId, name⟩ ∧
        (ensureTopic b p w name).pub.topics name = some (some ⟨w.nextId, name⟩) ∧
        (ensureTopic b p w name).world.broker = s1 ∧
        (ensureTopic b p w name).events = [.resolve name, .topicExists name]) ∧
    (∀ s1 s2 e, b.topicExists w.broker name = (s1, .ok false) →
      b.createTopic s1 name = (s2, .error e) →
      (∃ err, (ensureTopic b p w name).result = .error err) ∧
        (ensureTopic b p w name).pub.topics name = some none ∧
        (ensureTopic b p w name).world.broker = s2) ∧
    (∀ s1 s2, b.topicExists w.broker name = (s1, .ok false) →
      b.createTopic s1 name = (s2, .ok ()) →
      (ensureTopic b p w name).result = .ok ⟨w.nextId + 1, name⟩ ∧
        (ensureTopic b p w name).pub.topics name = some (some ⟨w.nextId + 1, name⟩) ∧
        (ensureTopic b p w name).world.broker = s2 ∧
        (ensureTopic b p w name).events =
          [.resolve name, .topicExists name, .createTopic name]) := by
  refine ⟨?_, ?_, ?_, ?_, ?_⟩
  · rcases he : b.topicExists w.broker name with ⟨s, e | _ | _⟩ <;>
    rcases hc : b.createTopic s name with ⟨s1, e1 | u⟩ <;>
    simp [ensureTopic, h, he, hc]
  · intro s1 e he
    simp [ensureTopic, h, he]
  · intro s1 he
    simp [ensureTopic, h, he, Publisher.setTopic]
  · intro s1 s2 e he hc
    simp [ensureTopic, h, he, hc]
  · intro s1 s2 he hc
    simp [ensureTopic, h, he, hc, Publisher.setTopic]

/-- C9: a call of `ensureTopic` in which the broker's `Exists` or `CreateTopic`
fails returns an error and no instance, hands the broker on in the state the failed
call left it in, and leaves the entry of the name present but unbound.  After any
run of `ensureTopic` calls for other names the entry is still unbound, and the next
call for the name asks the broker `Exists` again: it returns a new instance and
binds it if the broker then answers without error (the topic exists, or it does not
and `CreateTopic` succeeds), and it fails again, the entry still unbound, if the
broker fails again. -/
theorem ensureTopic_error_retries (b : Broker σ) (p : Publisher) (w : World σ) (name : String)
    (sFail : σ)
    (hunbound : p.topics name = none ∨ p.topics name = some none)
    (hfail : (∃ e, b.topicExists w.broker name = (sFail, .error e)) ∨
      (∃ s1 e, b.topicExists w.broker name = (s1, .ok false) ∧
        b.createTopic s1 name = (sFail, .error e))) :
    (∃ err, (ensureTopic b p w name).result = .error err) ∧
    (ensureTopic b p w name).pub.topics name = some none ∧
    (ensureTopic b p w name).world.broker = sFail ∧
    Event.topicExists name ∈ (ensureTopic b p w name).events ∧
    ∀ others : List String, name ∉ others →
      (ensureEach b others (ensureTopic b p w name).pub (ensureTopic b p w name).world).1.topics
          name = some none ∧
      ∀ (q : Publisher) (v : World σ),
        (q, v) = ensureEach b others (ensureTopic b p w name).pub (ensureTopic b p w name).world →
        (ensureTopic b q v name).events.take 2 = [.resolve name, .topicExists name] ∧
        (∀ s1, b.topicExists v.broker name = (s1, .ok true) →
          (ensureTopic b q v name).result = .ok ⟨v.nextId, name⟩ ∧
            (ensureTopic b q v name).pub.topics name = some (some ⟨v.nextId, name⟩) ∧
            (ensureTopic b q v name).world.broker = s1 ∧
            (ensureTopic b q v name).events = [.resolve name, .topicExists name]) ∧
        (∀ s1 s2, b.topicExists v.broker name = (s1, .ok false) →
          b.createTopic s1 name = (s2, .ok ()) →
          (ensureTopic b q v name).result = .ok ⟨v.nextId + 1, name⟩ ∧
            (ensureTopic b q v name).pub.topics name = some (some ⟨v.nextId + 1, name⟩) ∧
            (ensureTopic b q v name).world.broker = s2 ∧
            (ensureTopic b q v name).events =
              [.resolve name, .topicExists name, .createTopic name]) ∧
        ((∃ err, (ensureTopic b q v name).result = .error err) →
          (ensureTopic b q v name).pub.topics name = some none) := by
  have hr : (∃ err, (ensureTopic b p w name).result = .error err) ∧
      (ensureTopic b p w name).pub.topics name = some none ∧
      (ensureTopic b p w name).world.broker = sFail ∧
      Event.topicExists name ∈ (ensureTopic b p w name).events := by
    rcases hfail with ⟨e, he⟩ | ⟨s1, e, he, hc⟩
    · rcases hunbound with hp | hp <;>
      simp [ensureTopic, hp, he, Publisher.setTopic]
    · rcases hunbound with hp | hp <;>
      simp [ensureTopic, hp, he, hc, Publisher.setTopic]
  refine ⟨hr.1, hr.2.1, hr.2.2.1, hr.2.2.2, ?_⟩
  intro others hothers
  have hst := ensureEach_other b others (ensureTopic b p w name).pub
    (ensureTopic b p w name).world name hothers
  rw [hr.2.1] at hst
  refine ⟨hst, ?_⟩
  intro q v hqv
  have hq : q.topics name = some none := by
    have : q = (ensureEach b others (ensureTopic b p w name).pub
        (ensureTopic b p w name).world).1 := congrArg Prod.fst hqv
    rw [this]
    exact hst
  obtain ⟨u1, u2, u3, u4, u5⟩ := ensureTopic_unbound b q v name hq
  refine ⟨u1, u3, u5, ?_⟩
  rintro ⟨err, herr⟩
  rcases he : b.topicExists v.broker name with ⟨s1, e | _ | _⟩
  · exact (u2 s1 e he).2.1
  · rcases hc : b.createTopic s1 name with ⟨s2, e | u⟩
    · exact (u4 s1 s2 e he hc).2.1
    · rw [(u5 s1 s2 he hc).1] at herr
      cases herr
  · rw [(u3 s1 he).1] at herr
    cases herr

theorem ensureTopic_error_retries_witness :
    ((New []).topics "orders" = none ∨ (New []).topics "orders" = some none) ∧
    ((∃ e, flakyBroker.topicExists (⟨1, 0⟩ : World Nat).broker "orders" = (0, .error e)) ∨
      (∃ s1 e, flakyBroker.topicExists (⟨1, 0⟩ : World Nat).broker "orders" = (s1, .ok false) ∧
        flakyBroker.createTopic s1 "orders" = (0, .error e))) ∧
    (∃ err, (ensureTopic flakyBroker (New []) ⟨1, 0⟩ "orders").result = .error err) ∧
    (ensureTopic flakyBroker (New []) ⟨1, 0⟩ "orders").pub.topics "orders" = some none ∧
    (ensureTopic flakyBroker (New []) ⟨1, 0⟩ "orders").world.broker = 0 ∧
    "orders" ∉ ["users"] ∧
    (ensureEach flakyBroker ["users"] (ensureTopic flakyBroker (New []) ⟨1, 0⟩ "orders").pub
      (ensureTopic flakyBroker (New []) ⟨1, 0⟩ "orders").world).1.topics "orders" = some none ∧
    (ensureTopic flakyBroker
      (ensureEach flakyBroker ["users"] (ensureTopic flakyBroker (New []) ⟨1, 0⟩ "orders").pub
        (ensureTopic flakyBroker (New []) ⟨1, 0⟩ "orders").world).1
      (ensureEach flakyBroker ["users"] (ensureTopic flakyBroker (New []) ⟨1, 0⟩ "orders").pub
        (ensureTopic flakyBroker (New []) ⟨1, 0⟩ "orders").world).2 "orders").result =
      .ok ⟨4, "orders"⟩ ∧
    (ensureTopic flakyBroker
      (ensureEach flakyBroker ["users"] (ensureTopic flakyBroker (New []) ⟨1, 0⟩ "orders").pub
        (ensureTopic flakyBroker (New []) ⟨1, 0⟩ "orders").world).1
      (ensureEach flakyBroker ["users"] (ensureTopic flakyBroker (New []) ⟨1, 0⟩ "orders").pub
        (ensureTopic flakyBroker (New []) ⟨1, 0⟩ "orders").world).2 "orders").events =
      [.resolve "orders", .topicExists "orders", .createTopic "orders"] ∧
    (ensureTopic flakyBroker
      (ensureEach flakyBroker ["users"] (ensureTopic flakyBroker (New []) ⟨1, 0⟩ "orders").pub
        (ensureTopic flakyBroker (New []) ⟨1, 0⟩ "orders").world).1
      (ensureEach flakyBroker ["users"] (ensureTopic flakyBroker (New []) ⟨1, 0⟩ "orders").pub
        (ensureTopic flakyBroker (New []) ⟨1, 0⟩ "orders").world).2 "orders").pub.topics "orders" =
      some (some ⟨4, "orders"⟩) :=
  have h := ensureTopic_error_retries flakyBroker (New []) ⟨1, 0⟩ "orders" 0
    (Or.inl rfl) (Or.inl ⟨_, rfl⟩)
  have hn : "orders" ∉ ["users"] := by decide
  have hagain := ((h.2.2.2.2 ["users"] hn).2 _ _ rfl).2.2.1 0 0 rfl rfl
  ⟨Or.inl rfl, Or.inl ⟨_, rfl⟩, h.1, h.2.1, h.2.2.1, hn, (h.2.2.2.2 ["users"] hn).1,
    hagain.1, hagain.2.2.2, hagain.2.1⟩

end Registry

/-! ## The handler: gate and routing -/

section Handler

variable {σ : Type}

theorem queryGet_absent (query : List (String × String)) (key : String)
    (h : (query.find? fun kv => kv.1 == key) = none) : queryGet query key = "" := by
  simp [queryGet, h]

/-- C3: with at least one shared key configured, a request whose `sharedKey` query
parameter is absent, empty or not a configured key is answered 401, and the handler
makes no call of `ensureTopic`, no broker call and no publish call, and leaves the
registry and the broker untouched. -/
theorem http_unauthorized (b : Broker σ) (p : Publisher) (w : World σ) (req : Request)
    (hkeys : p.keys ≠ [])
    (hkey : (req.query.find? fun kv => kv.1 == "sharedKey") = none ∨
      queryGet req.query "sharedKey" = "" ∨ queryGet req.query "sharedKey" ∉ p.keys) :
    let r := http b p w req
    r.result = 401 ∧ statuses r.events = [401] ∧ resolutions r.events = [] ∧
      lookups r.events = [] ∧ publishes r.events = [] ∧ r.world = w ∧
      r.pub.topics = p.topics := by
  have hgate : unauthorized p req = true := by
    have hlen : 0 < p.keys.length := List.length_pos.mpr hkeys
    rcases hkey with h | h | h
    · simp [unauthorized, hlen, queryGet_absent _ _ h]
    · simp [unauthorized, hlen, h]
    · simp [unauthorized, hlen, h]
  cases hl : p.latch <;>
    simp [http, serve, hgate, hl, statuses, resolutions, lookups, publishes]

theorem http_unauthorized_witness :
    (New [.sharedKeys ["abc"]]).keys ≠ [] ∧
    (((⟨"/v1/mytopic/2020-01-01/file.ndjson", [("sharedKey", "xyz")], [], true⟩ : Request).query.find?
        fun kv => kv.1 == "sharedKey") = none ∨
      queryGet (⟨"/v1/mytopic/2020-01-01/file.ndjson", [("sharedKey", "xyz")], [], true⟩ : Request).query
        "sharedKey" = "" ∨
      queryGet (⟨"/v1/mytopic/2020-01-01/file.ndjson", [("sharedKey", "xyz")], [], true⟩ : Request).query
        "sharedKey" ∉ (New [.sharedKeys ["abc"]]).keys) ∧
    (let r := http steadyBroker (New [.sharedKeys ["abc"]]) ⟨[], 0⟩
        ⟨"/v1/mytopic/2020-01-01/file.ndjson", [("sharedKey", "xyz")], [], true⟩
     r.result = 401 ∧ statuses r.events = [401] ∧ resolutions r.events = [] ∧
      lookups r.events = [] ∧ publishes r.events = [] ∧ r.world = ⟨[], 0⟩ ∧
      r.pub.topics = (New [.sharedKeys ["abc"]]).topics) :=
  ⟨by decide, Or.inr (Or.inr (by decide)),
    http_unauthorized steadyBroker (New [.sharedKeys ["abc"]]) ⟨[], 0⟩
      ⟨"/v1/mytopic/2020-01-01/file.ndjson", [("sharedKey", "xyz")], [], true⟩ (by decide)
      (Or.inr (Or.inr (by decide)))⟩

/-- C5: a request that passes the shared-key gate and whose path neither pattern
matches is reported unmatched by the router and answered 404, and the handler does
nothing else: no call of `ensureTopic`, no broker call, no publish call, no read of
the body; registry and broker stay as they were. -/
theorem http_not_found (b : Broker σ) (p : Publisher) (w : World σ) (req : Request)
    (hgate : unauthorized p req = false)
    (hresolved : (findStringSubmatch resolvedFile req.path).isNone)
    (hgeneral : (findStringSubmatch generalFile req.path).isNone) :
    let r := http b p w req
    route req.path = none ∧ r.result = 404 ∧ statuses r.events = [404] ∧
      resolutions r.events = [] ∧ lookups r.events = [] ∧ publishes r.events = [] ∧
      Event.readBody ∉ r.events ∧ r.world = w ∧ r.pub.topics = p.topics := by
  have hroute : route req.path = none := by
    rw [Option.isNone_iff_eq_none] at hresolved hgeneral
    simp [route, hresolved, hgeneral]
  cases hl : p.latch <;>
    simp [http, serve, hgate, hroute, hl, statuses, resolutions, lookups, publishes]

theorem http_not_found_witness :
    unauthorized (New [.counter, .mux "/v1/"]) ⟨"/v1/healthz", [], [1, 2, 10], true⟩ = false ∧
    (findStringSubmatch resolvedFile (⟨"/v1/healthz", [], [1, 2, 10], true⟩ : Request).path).isNone ∧
    (findStringSubmatch generalFile (⟨"/v1/healthz", [], [1, 2, 10], true⟩ : Request).path).isNone ∧
    (let r := http steadyBroker (New [.counter, .mux "/v1/"]) ⟨[], 0⟩ ⟨"/v1/healthz", [], [1, 2, 10], true⟩
     route (⟨"/v1/healthz", [], [1, 2, 10], true⟩ : Request).path = none ∧ r.result = 404 ∧
      statuses r.events = [404] ∧
      resolutions r.events = [] ∧ lookups r.events = [] ∧ publishes r.events = [] ∧
      Event.readBody ∉ r.events ∧ r.world = ⟨[], 0⟩ ∧
      r.pub.topics = (New [.counter, .mux "/v1/"]).topics) :=
  ⟨by decide, by decide, by decide,
    http_not_found steadyBroker (New [.counter, .mux "/v1/"]) ⟨[], 0⟩ ⟨"/v1/healthz", [], [1, 2, 10], true⟩
      (by decide) (by decide) (by decide)⟩

end Handler

/-! ## The handler: submitting and awaiting -/

section Pipeline

variable {σ : Type}

theorem ensureTopic_events (b : Broker σ) (p : Publisher) (w : World σ) (name : String) :
    (ensureTopic b p w name).events = [.resolve name] ∨
    (ensureTopic b p w name).events = [.resolve name, .topicExists name] ∨
    (ensureTopic b p w name).events = [.resolve name, .topicExists name, .createTopic name] := by
  rcases hp : p.topics name with _ | _ | t0 <;>
  rcases he : b.topicExists w.broker name with ⟨s, e | _ | _⟩ <;>
  rcases hc : b.createTopic s name with ⟨s1, e1 | u⟩ <;>
  simp [ensureTopic, hp, he, hc]

theorem ensureTopic_topicPrefix (b : Broker σ) (p : Publisher) (w : World σ) (name : String) :
    (ensureTopic b p w name).pub.topicPrefix = p.topicPrefix := by
  rcases hp : p.topics name with _ | _ | t0 <;>
  rcases he : b.topicExists w.broker name with ⟨s, e | _ | _⟩ <;>
  rcases hc : b.createTopic s name with ⟨s1, e1 | u⟩ <;>
  simp [ensureTopic, hp, he, hc, Publisher.setTopic]

theorem Publish_ok (b : Broker σ) (p : Publisher) (w : World σ) (table : String)
    (data : List Byte) (attrs : List (String × String)) (t : Topic)
    (h : (ensureTopic b p w (topicName p table)).result = .ok t) :
    Publish b p w table data attrs =
      ⟨.ok (ensureTopic b p w (topicName p table)).world.nextId,
        (ensureTopic b p w (topicName p table)).pub,
        ⟨b.publish (ensureTopic b p w (topicName p table)).world.broker t data attrs
            (ensureTopic b p w (topicName p table)).world.nextId,
          (ensureTopic b p w (topicName p table)).world.nextId + 1⟩,
        (ensureTopic b p w (topicName p table)).events ++
          [.publish t data attrs (ensureTopic b p w (topicName p table)).world.nextId]⟩ := by
  simp [Publish, h]

theorem Publish_error (b : Broker σ) (p : Publisher) (w : World σ) (table : String)
    (data : List Byte) (attrs : List (String × String)) (err : Error)
    (h : (ensureTopic b p w (topicName p table)).result = .error err) :
    Publish b p w table data attrs =
      ⟨.error err, (ensureTopic b p w (topicName p table)).pub,
        (ensureTopic b p w (topicName p table)).world,
        (ensureTopic b p w (topicName p table)).events⟩ := by
  simp [Publish, h]

theorem topicName_ensureTopic (b : Broker σ) (p : Publisher) (w : World σ) (name table : String) :
    topicName (ensureTopic b p w name).pub table = topicName p table := by
  simp [topicName, ensureTopic_topicPrefix]

/-- From a state in which the topic is bound, the scan loop publishes every token
to the bound instance and ends without an error. -/
theorem submitAll_bound (b : Broker σ) (topic : String) (attrs : List (String × String))
    (t : Topic) (tokens : List (List Byte)) (p : Publisher) (w : World σ) (futures : List Nat)
    (h : p.topics (topicName p topic) = some (some t)) :
    let r := submitAll b topic attrs tokens p w futures
    r.result = .ok (futures ++ submitted r.events) ∧
      publishes r.events = tokens.map (fun data => (t, data, attrs)) ∧
      awaited r.events = [] ∧ (∀ e ∈ r.events, e.isWriteHeader = false) := by
  induction tokens generalizing p w futures with
  | nil => simp [submitAll, submitted, publishes, awaited]
  | cons token rest ih =>
    have he := ensureTopic_bound b p w _ t h
    have hres : (ensureTopic b p w (topicName p topic)).result = .ok t := by rw [he]
    have hP := Publish_ok b p w topic token attrs t hres
    rw [he] at hP
    simp only at hP
    have ih1 := ih p ⟨b.publish w.broker t token attrs w.nextId, w.nextId + 1⟩
      (futures ++ [w.nextId]) h
    simp only [submitAll, hP]
    obtain ⟨h1, h2, h3, h4⟩ := ih1
    refine ⟨?_, ?_, ?_, ?_⟩
    · rw [h1]
      simp [submitted, List.filterMap_append]
    · simp only [publishes, List.filterMap_append, List.filterMap_cons, List.filterMap_nil,
        List.map_cons] at h2 ⊢
      simp [h2]
    · simp only [awaited, List.filterMap_append, List.filterMap_cons, List.filterMap_nil] at h3 ⊢
      simp [h3]
    · intro e hmem
      simp only [List.mem_append, List.mem_cons, List.mem_singleton, List.not_mem_nil,
        or_false] at hmem
      rcases hmem with (rfl | rfl) | hmem
      · rfl
      · rfl
      · exact h4 e hmem

theorem ensureTopic_quiet (b : Broker σ) (p : Publisher) (w : World σ) (name : String) :
    submitted (ensureTopic b p w name).events = [] ∧
      publishes (ensureTopic b p w name).events = [] ∧
      awaited (ensureTopic b p w name).events = [] ∧
      (∀ e ∈ (ensureTopic b p w name).events, e.isWriteHeader = false) := by
  rcases ensureTopic_events b p w name with h | h | h <;>
    simp [h, submitted, publishes, awaited, Event.isWriteHeader]

/-- Once topic resolution succeeds for the first token, the scan loop publishes
every token to the resolved instance and ends without an error. -/
theorem submitAll_resolved (b : Broker σ) (topic : String) (attrs : List (String × String))
    (t : Topic) (tokens : List (List Byte)) (p : Publisher) (w : World σ) (futures : List Nat)
    (h : (ensureTopic b p w (topicName p topic)).result = .ok t) :
    let r := submitAll b topic attrs tokens p w futures
    r.result = .ok (futures ++ submitted r.events) ∧
      publishes r.events = tokens.map (fun data => (t, data, attrs)) ∧
      awaited r.events = [] ∧ (∀ e ∈ r.events, e.isWriteHeader = false) := by
  cases tokens with
  | nil => simp [submitAll, submitted, publishes, awaited]
  | cons token rest =>
    have hP := Publish_ok b p w topic token attrs t h
    have hb : (ensureTopic b p w (topicName p topic)).pub.topics
        (topicName (ensureTopic b p w (topicName p topic)).pub topic) = some (some t) := by
      rw [topicName_ensureTopic]
      exact ensureTopic_ok_binds b p w _ t h
    obtain ⟨q1, q2, q3, q4⟩ := ensureTopic_quiet b p w (topicName p topic)
    obtain ⟨h1, h2, h3, h4⟩ := submitAll_bound b topic attrs t rest _
      ⟨b.publish (ensureTopic b p w (topicName p topic)).world.broker t token attrs
          (ensureTopic b p w (topicName p topic)).world.nextId,
        (ensureTopic b p w (topicName p topic)).world.nextId + 1⟩
      (futures ++ [(ensureTopic b p w (topicName p topic)).world.nextId]) hb
    simp only [submitAll, hP]
    refine ⟨?_, ?_, ?_, ?_⟩
    · rw [h1]
      simp only [submitted, List.filterMap_append, List.filterMap_cons, List.filterMap_nil] at q1 ⊢
      simp [q1]
    · simp only [publishes, List.filterMap_append, List.filterMap_cons, List.filterMap_nil,
        List.map_cons] at q2 h2 ⊢
      simp [q2, h2]
    · simp only [awaited, List.filterMap_append, List.filterMap_cons, List.filterMap_nil] at q3 h3 ⊢
      simp [q3, h3]
    · intro e hmem
      simp only [List.mem_append, List.mem_cons, List.mem_singleton, List.not_mem_nil,
        or_false] at hmem
      rcases hmem with (hmem | rfl) | hmem
      · exact q4 e hmem
      · rfl
      · exact h4 e hmem

/-- The scan loop from any state: it awaits nothing and writes no status; the
list `futures` it ends with holds exactly the pending results it was handed out;
and when it stops on an error, it has not published anything. -/
theorem submitAll_trace (b : Broker σ) (topic : String) (attrs : List (String × String))
    (tokens : List (List Byte)) (p : Publisher) (w : World σ) (futures : List Nat) :
    let r := submitAll b topic attrs tokens p w futures
    awaited r.events = [] ∧ (∀ e ∈ r.events, e.isWriteHeader = false) ∧
      (∀ fs, r.result = .ok fs → fs = futures ++ submitted r.events) ∧
      (∀ err, r.result = .error err → submitted r.events = []) := by
  rcases hres : (ensureTopic b p w (topicName p topic)).result with err | t
  · cases tokens with
    | nil => simp [submitAll, submitted, awaited]
    | cons token rest =>
      have hP := Publish_error b p w topic token attrs err hres
      obtain ⟨q1, _, q3, q4⟩ := ensureTopic_quiet b p w (topicName p topic)
      simp only [submitAll, hP]
      exact ⟨q3, q4, by simp, fun _ _ => q1⟩
  · obtain ⟨h1, _, h3, h4⟩ := submitAll_resolved b topic attrs t tokens p w futures hres
    refine ⟨h3, h4, ?_, ?_⟩
    · intro fs hfs
      rw [h1] at hfs
      exact (Except.ok.inj hfs).symm
    · intro err herr
      rw [h1] at herr
      cases herr

/-- The loop over `futures` awaits each pending result once, in order, publishes
nothing and writes no status. -/
theorem awaitAll_trace (b : Broker σ) (futures : List Nat) (s : σ) (err : Option Error) :
    awaited (awaitAll b futures s err).2.2 = futures ∧
      submitted (awaitAll b futures s err).2.2 = [] ∧
      publishes (awaitAll b futures s err).2.2 = [] ∧
      (∀ e ∈ (awaitAll b futures s err).2.2, e.isWriteHeader = false) := by
  induction futures generalizing s err with
  | nil => simp [awaitAll, awaited, submitted, publishes]
  | cons future rest ih =>
    rcases hg : b.get s future with ⟨s1, ferr | id⟩
    · obtain ⟨h1, h2, h3, h4⟩ := ih s1 (if err.isSome then some ferr else err)
      simp only [awaitAll, hg]
      refine ⟨?_, ?_, ?_, ?_⟩
      · simp only [awaited, List.filterMap_cons] at h1 ⊢
        simp [h1]
      · simp only [submitted, List.filterMap_cons] at h2 ⊢
        simp [h2]
      · simp only [publishes, List.filterMap_cons] at h3 ⊢
        simp [h3]
      · intro e hmem
        rcases List.mem_cons.mp hmem with rfl | hmem
        · rfl
        · exact h4 e hmem
    · obtain ⟨h1, h2, h3, h4⟩ := ih s1 err
      simp only [awaitAll, hg]
      refine ⟨?_, ?_, ?_, ?_⟩
      · simp only [awaited, List.filterMap_cons] at h1 ⊢
        simp [h1]
      · simp only [submitted, List.filterMap_cons] at h2 ⊢
        simp [h2]
      · simp only [publishes, List.filterMap_cons] at h3 ⊢
        simp [h3]
      · intro e hmem
        rcases List.mem_cons.mp hmem with rfl | hmem
        · rfl
        · exact h4 e hmem

/-- The variable `err` is nil when the loop over `futures` starts, and the loop
assigns to it only when it is not nil: it is still nil when the loop ends. -/
theorem awaitAll_err_none (b : Broker σ) (futures : List Nat) (s : σ) :
    (awaitAll b futures s none).2.1 = none := by
  induction futures generalizing s with
  | nil => rfl
  | cons future rest ih =>
    rcases hg : b.get s future with ⟨s1, ferr | id⟩
    · simpa [awaitAll, hg] using ih s1
    · simpa [awaitAll, hg] using ih s1

/-- A trace holding one status write splits around it in only one way. -/
theorem split_at_status (l l1 pre post : List Event) (c code : Nat)
    (hl : ∀ e ∈ l, e.isWriteHeader = false) (hl1 : ∀ e ∈ l1, e.isWriteHeader = false)
    (h : pre ++ .writeHeader code :: post = l ++ .writeHeader c :: l1) : pre = l := by
  induction pre generalizing l with
  | nil =>
    cases l with
    | nil => rfl
    | cons x xs =>
      simp only [List.nil_append, List.cons_append, List.cons.injEq] at h
      have := hl x (List.mem_cons_self _ _)
      rw [← h.1] at this
      cases this
  | cons y ys ih =>
    cases l with
    | nil =>
      simp only [List.nil_append, List.cons_append, List.cons.injEq] at h
      have := hl1 (.writeHeader code) (by rw [← h.2]; simp)
      cases this
    | cons x xs =>
      simp only [List.cons_append, List.cons.injEq] at h
      rw [h.1, ih xs (fun e he => hl e (List.mem_cons_of_mem _ he)) h.2]

/-- The handler body writes one status, as its last call, and by then has awaited
every pending result it was handed out. -/
theorem serve_trace (b : Broker σ) (p : Publisher) (w : World σ) (req : Request) :
    ∃ l c, (serve b p w req).events = l ++ [.writeHeader c] ∧
      (∀ e ∈ l, e.isWriteHeader = false) ∧ submitted l = awaited l := by
  unfold serve
  split
  · exact ⟨[], 401, rfl, by simp, rfl⟩
  · split
    · exact ⟨[], 404, rfl, by simp, rfl⟩
    · next topic table _ =>
      obtain ⟨h1, h2, h3, h4⟩ := submitAll_trace b topic
        [("path", req.path), ("table", table)] (scan req.eofWithData req.body) p w []
      simp only at h1 h2 h3 h4 ⊢
      split
      · next err herr =>
        refine ⟨.readBody :: (submitAll b topic [("path", req.path), ("table", table)]
          (scan req.eofWithData req.body) p w []).events, statusOf (some err), by simp, ?_, ?_⟩
        · intro e hmem
          rcases List.mem_cons.mp hmem with rfl | hmem
          · rfl
          · exact h2 e hmem
        · have := h4 err herr
          simp only [submitted, awaited, List.filterMap_cons] at this h1 ⊢
          rw [this, h1]
      · next fs hfs =>
        obtain ⟨a1, a2, _, a4⟩ := awaitAll_trace b fs (submitAll b topic
          [("path", req.path), ("table", table)] (scan req.eofWithData req.body) p w []).world.broker none
        refine ⟨.readBody :: (submitAll b topic [("path", req.path), ("table", table)]
          (scan req.eofWithData req.body) p w []).events ++ (awaitAll b fs (submitAll b topic
          [("path", req.path), ("table", table)] (scan req.eofWithData req.body) p w []).world.broker none).2.2,
          statusOf (awaitAll b fs (submitAll b topic [("path", req.path), ("table", table)]
            (scan req.eofWithData req.body) p w []).world.broker none).2.1, by simp, ?_, ?_⟩
        · intro e hmem
          simp only [List.cons_append, List.mem_cons, List.mem_append] at hmem
          rcases hmem with rfl | hmem | hmem
          · rfl
          · exact h2 e hmem
          · exact a4 e hmem
        · have hsub := h3 fs hfs
          simp only [List.nil_append] at hsub
          simp only [submitted, awaited, List.cons_append, List.filterMap_cons,
            List.filterMap_append] at a1 a2 h1 hsub ⊢
          rw [a1, a2, h1, ← hsub]
          simp

/-- C10: in every run of the handler, the calls made before the status is written
hold a `Get` for each pending result a publish call handed out, in the order of
the publish calls: nothing submitted is left un-awaited when the status is written.
When the scan loop returns early on a failed topic resolution, nothing has been
submitted, since resolution cannot fail once it has succeeded for the request. -/
theorem http_awaits_submitted (b : Broker σ) (p : Publisher) (w : World σ) (req : Request)
    (pre post : List Event) (code : Nat)
    (h : (http b p w req).events = pre ++ .writeHeader code :: post) :
    submitted pre = awaited pre := by
  obtain ⟨l, c, hev, hl, hsub⟩ := serve_trace b p w req
  cases hlatch : p.latch
  · simp only [http, hlatch, Bool.false_eq_true, if_false, hev] at h
    have := split_at_status l [] pre post c code hl (by simp) (by rw [← h])
    rw [this]
    exact hsub
  · simp only [http, hlatch, if_true, hev] at h
    have := split_at_status (.hold :: l) [.release] pre post c code
      (by
        intro e hmem
        rcases List.mem_cons.mp hmem with rfl | hmem
        · rfl
        · exact hl e hmem)
      (by simp [Event.isWriteHeader]) (by rw [← h]; simp)
    rw [this]
    simpa [submitted, awaited] using hsub

theorem http_awaits_submitted_witness :
    (http steadyBroker (New [.counter]) ⟨[], 0⟩
        ⟨"/v1/t/2020-01-01/000000000000000000000000000000000-u-n-e.ndjson", [], [97, 10, 98, 10], true⟩).events =
      [.hold, .readBody, .resolve "t", .topicExists "t", .createTopic "t",
        .publish ⟨1, "t"⟩ [97] [("path", "/v1/t/2020-01-01/000000000000000000000000000000000-u-n-e.ndjson"), ("table", "n")] 2,
        .resolve "t",
        .publish ⟨1, "t"⟩ [98] [("path", "/v1/t/2020-01-01/000000000000000000000000000000000-u-n-e.ndjson"), ("table", "n")] 3,
        .get 2 true, .get 3 true] ++ .writeHeader 201 :: [.release] ∧
    submitted [.hold, .readBody, .resolve "t", .topicExists "t", .createTopic "t",
        .publish ⟨1, "t"⟩ [97] [("path", "/v1/t/2020-01-01/000000000000000000000000000000000-u-n-e.ndjson"), ("table", "n")] 2,
        .resolve "t",
        .publish ⟨1, "t"⟩ [98] [("path", "/v1/t/2020-01-01/000000000000000000000000000000000-u-n-e.ndjson"), ("table", "n")] 3,
        .get 2 true, .get 3 true] =
      awaited [.hold, .readBody, .resolve "t", .topicExists "t", .createTopic "t",
        .publish ⟨1, "t"⟩ [97] [("path", "/v1/t/2020-01-01/000000000000000000000000000000000-u-n-e.ndjson"), ("table", "n")] 2,
        .resolve "t",
        .publish ⟨1, "t"⟩ [98] [("path", "/v1/t/2020-01-01/000000000000000000000000000000000-u-n-e.ndjson"), ("table", "n")] 3,
        .get 2 true, .get 3 true] :=
  ⟨rfl, http_awaits_submitted steadyBroker (New [.counter]) ⟨[], 0⟩
    ⟨"/v1/t/2020-01-01/000000000000000000000000000000000-u-n-e.ndjson", [], [97, 10, 98, 10], true⟩ _ [.release] 201 rfl⟩

/-- The early return of the scan loop: when topic resolution fails, the handler
answers 500 after `Exists` alone; no record has been published before it. -/
theorem http_resolution_failure_trace :
    (http flakyBroker (New []) ⟨1, 0⟩
        ⟨"/v1/t/2020-01-01/000000000000000000000000000000000-u-n-e.ndjson", [], [97, 10, 98, 10], true⟩).events =
      [.readBody, .resolve "t", .topicExists "t", .writeHeader 500] := rfl

theorem rawLines_replicate (n : Nat) (cur rest : List Byte) :
    rawLines cur (List.replicate n 97 ++ 10 :: rest) =
      (cur ++ List.replicate n 97, true) :: rawLines [] rest := by
  induction n generalizing cur with
  | zero => simp [rawLines]
  | succ n ih =>
    have h97 : ¬ ((97 : Byte) = 10) := by decide
    rw [List.replicate_succ, List.cons_append, rawLines, if_neg h97, ih]
    simp

/-- Of `longLineBody` the scanner yields the first line only. -/
theorem scan_longLineBody (eofWithData : Bool) : scan eofWithData longLineBody = [[97]] := by
  have h1 : rawLines [] longLineBody =
      ([97], true) :: (List.replicate maxScanTokenSize 97, true) :: rawLines [] [98, 10] := by
    have h := rawLines_replicate maxScanTokenSize [] [98, 10]
    rw [List.nil_append] at h
    rw [longLineBody, List.cons_append, List.cons_append, List.nil_append, rawLines,
      if_neg (by decide), rawLines, if_pos rfl]
    exact congrArg _ h
  have h2 : fits eofWithData ([97], true) = true := by
    simp [fits, maxScanTokenSize]
  have h3 : fits eofWithData (List.replicate maxScanTokenSize 97, true) = false := by
    simp [fits]
  rw [scan, h1, List.takeWhile_cons, h2, if_pos rfl, List.takeWhile_cons, h3]
  rfl

/-- The handler sees of a request its path, its query and the tokens the scanner
yields. -/
theorem http_congr_scan (b : Broker σ) (p : Publisher) (w : World σ) (req req1 : Request)
    (hpath : req.path = req1.path) (hquery : req.query = req1.query)
    (hscan : scan req.eofWithData req.body = scan req1.eofWithData req1.body) :
    http b p w req = http b p w req1 := by
  simp only [http, serve, unauthorized, hpath, hquery, hscan]

/-- C2 fails on the code: the body of `longLineRequest` holds three records, `a`, a
line of 65536 bytes and `b`; the gate is open, the router matches and the broker
never fails.  The handler publishes the first record only and answers 201: the
scanner stops at the long line with `ErrTooLong`, and the handler never asks for
the scanner's error. -/
theorem http_long_line_unpublished :
    longLineRequest.body = [97, 10] ++ (List.replicate 65536 97 ++ [10, 98, 10]) ∧
    (http steadyBroker (New []) ⟨[], 0⟩ longLineRequest).result = 201 ∧
    (http steadyBroker (New []) ⟨[], 0⟩ longLineRequest).events =
      [.readBody, .resolve "t", .topicExists "t", .createTopic "t",
        .publish ⟨1, "t"⟩ [97] [("path", longLineRequest.path), ("table", "n")] 2,
        .get 2 true, .writeHeader 201] := by
  have h : http steadyBroker (New []) ⟨[], 0⟩ longLineRequest =
      http steadyBroker (New []) ⟨[], 0⟩ firstLineRequest :=
    http_congr_scan _ _ _ _ _ rfl rfl ((scan_longLineBody true).trans rfl)
  rw [h]
  exact ⟨rfl, rfl, rfl⟩

/-- C1 fails on the code: of the two records of `twoRecordRequest` the first is
published and its awaited outcome is an error, and the handler answers 201. -/
theorem http_failed_publish_created :
    (http lossyBroker (New []) ⟨1, 0⟩ twoRecordRequest).result = 201 ∧
    (http lossyBroker (New []) ⟨1, 0⟩ twoRecordRequest).events =
      [.readBody, .resolve "t", .topicExists "t",
        .publish ⟨0, "t"⟩ [97] [("path", twoRecordRequest.path), ("table", "n")] 1,
        .resolve "t",
        .publish ⟨0, "t"⟩ [98] [("path", twoRecordRequest.path), ("table", "n")] 2,
        .get 1 false, .get 2 true, .writeHeader 201] :=
  ⟨rfl, rfl⟩

/-- Whatever the awaited outcomes are, the handler answers 201 once the scan loop
has ended without an error of `Publish`. -/
theorem http_status_ignores_outcomes (b : Broker σ) (p : Publisher) (w : World σ) (req : Request)
    (topic table : String) (t : Topic)
    (hgate : unauthorized p req = false)
    (hroute : route req.path = some (topic, table))
    (hresolve : (ensureTopic b p w (topicName p topic)).result = .ok t) :
    (http b p w req).result = 201 := by
  obtain ⟨h1, _, _, _⟩ := submitAll_resolved b topic [("path", req.path), ("table", table)] t
    (scan req.eofWithData req.body) p w [] hresolve
  rw [List.nil_append] at h1
  have hnone := awaitAll_err_none b
    (submitted (submitAll b topic [("path", req.path), ("table", table)]
      (scan req.eofWithData req.body) p w []).events)
    (submitAll b topic [("path", req.path), ("table", table)] (scan req.eofWithData req.body) p w []).world.broker
  cases hl : p.latch <;>
    simp only [http, hl, serve, hgate, hroute, h1, hnone, statusOf] <;> rfl

end Pipeline

/-! ## The matcher -/

section Matcher

theorem mem_counts (lo : Nat) (hi : Option Nat) (run k : Nat) :
    k ∈ counts lo hi run ↔ lo ≤ k ∧ k ≤ run ∧ ∀ h, hi = some h → k ≤ h := by
  cases hi with
  | none => simp [counts, Nat.lt_succ_iff, and_comm]
  | some h =>
    simp only [counts, List.mem_filter, List.mem_reverse, List.mem_range, Nat.lt_succ_iff,
      decide_eq_true_eq, Option.some.injEq, forall_eq']
    omega

theorem take_of_le_runLen (cls : Char → Bool) (s : List Char) (k : Nat)
    (h : k ≤ runLen cls s) : (s.take k).length = k ∧ ∀ x ∈ s.take k, cls x = true := by
  induction s generalizing k with
  | nil =>
    have : k = 0 := by simpa [runLen] using h
    subst this
    simp
  | cons a s ih =>
    cases k with
    | zero => simp
    | succ k =>
      by_cases ha : cls a = true
      · have hk : k ≤ runLen cls s := by
          simp only [runLen, List.takeWhile_cons, ha, if_true, List.length_cons] at h
          exact Nat.le_of_succ_le_succ h
        obtain ⟨h1, h2⟩ := ih k hk
        refine ⟨by simp [h1], ?_⟩
        intro x hx
        simp only [List.take_succ_cons, List.mem_cons] at hx
        rcases hx with rfl | hx
        · exact ha
        · exact h2 x hx
      · simp [runLen, List.takeWhile_cons, ha] at h

theorem length_le_runLen (cls : Char → Bool) (c tail : List Char)
    (h : ∀ x ∈ c, cls x = true) : c.length ≤ runLen cls (c ++ tail) := by
  induction c with
  | nil => simp
  | cons a c ih =>
    have ha : cls a = true := h a (List.mem_cons_self _ _)
    have := ih (fun x hx => h x (List.mem_cons_of_mem _ hx))
    simp only [runLen, List.cons_append, List.takeWhile_cons, ha, if_true, List.length_cons] at this ⊢
    omega

/-- What the matcher returns is a match. -/
theorem matchHere_sound (prog : List Inst) (s : List Char) (chunks : List (List Char))
    (h : matchHere prog s = some chunks) : Parses prog s chunks := by
  induction prog generalizing s chunks with
  | nil =>
    simp only [matchHere, Option.some.injEq] at h
    simp [Parses, h]
  | cons inst rest ih =>
    cases inst with
    | rpt lo hi cls =>
      simp only [matchHere] at h
      obtain ⟨k, hk, hf⟩ := List.exists_of_findSome?_eq_some h
      rw [mem_counts] at hk
      obtain ⟨cs, hcs, rfl⟩ := Option.map_eq_some'.mp hf
      obtain ⟨hlen, hall⟩ := take_of_le_runLen cls s k hk.2.1
      refine ⟨s.take k, s.drop k, cs, rfl, (List.take_append_drop k s).symm, ?_, ?_, hall,
        ih _ _ hcs⟩
      · rw [hlen]
        exact hk.1
      · intro h1 hh
        rw [hlen]
        exact hk.2.2 h1 hh
    | cap slot =>
      simp only [matchHere] at h
      obtain ⟨cs, hcs, rfl⟩ := Option.map_eq_some'.mp h
      exact ⟨cs, rfl, ih _ _ hcs⟩
    | eot =>
      cases s with
      | nil =>
        simp only [matchHere] at h
        obtain ⟨cs, hcs, rfl⟩ := Option.map_eq_some'.mp h
        exact ⟨rfl, cs, rfl, ih _ _ hcs⟩
      | cons a s => simp [matchHere] at h

/-- Where there is a match, the matcher returns one. -/
theorem matchHere_complete (prog : List Inst) (s : List Char) (chunks : List (List Char))
    (h : Parses prog s chunks) : (matchHere prog s).isSome = true := by
  induction prog generalizing s chunks with
  | nil => simp [matchHere]
  | cons inst rest ih =>
    cases inst with
    | rpt lo hi cls =>
      obtain ⟨c, tail, cs, _, rfl, hlo, hhi, hall, hrest⟩ := h
      simp only [matchHere, List.findSome?_isSome_iff]
      refine ⟨c.length, (mem_counts _ _ _ _).mpr ⟨hlo, length_le_runLen cls c tail hall, hhi⟩, ?_⟩
      simp only [List.drop_left, Option.isSome_map']
      exact ih _ _ hrest
    | cap slot =>
      obtain ⟨cs, _, hrest⟩ := h
      simp only [matchHere, Option.isSome_map']
      exact ih _ _ hrest
    | eot =>
      obtain ⟨rfl, cs, _, hrest⟩ := h
      simp only [matchHere, Option.isSome_map']
      exact ih _ _ hrest

theorem find_sound (prog : List Inst) (s : List Char) (chunks : List (List Char))
    (h : find prog s = some chunks) : ∃ pre suf, s = pre ++ suf ∧ Parses prog suf chunks := by
  induction s with
  | nil => exact ⟨[], [], rfl, matchHere_sound _ _ _ h⟩
  | cons a s ih =>
    simp only [find] at h
    cases hm : matchHere prog (a :: s) with
    | some ch =>
      rw [hm] at h
      simp only [Option.orElse, Option.some.injEq] at h
      subst h
      exact ⟨[], a :: s, rfl, matchHere_sound _ _ _ hm⟩
    | none =>
      rw [hm] at h
      simp only [Option.orElse] at h
      obtain ⟨pre, suf, rfl, hp⟩ := ih h
      exact ⟨a :: pre, suf, rfl, hp⟩

theorem find_complete (prog : List Inst) (pre suf : List Char) (chunks : List (List Char))
    (h : Parses prog suf chunks) : (find prog (pre ++ suf)).isSome = true := by
  induction pre with
  | nil =>
    have hm := matchHere_complete _ _ _ h
    cases suf with
    | nil => simpa [find] using hm
    | cons a s =>
      obtain ⟨ch, hch⟩ := Option.isSome_iff_exists.mp hm
      simp [find, hch, Option.orElse]
  | cons a pre ih =>
    simp only [List.cons_append, find]
    cases hm : matchHere prog (a :: (pre ++ suf)) with
    | some ch => simp [Option.orElse]
    | none => simpa [Option.orElse] using ih

/-- A match at the first position is the leftmost match. -/
theorem find_of_matchHere (prog : List Inst) (s : List Char) (chunks : List (List Char))
    (h : matchHere prog s = some chunks) : find prog s = some chunks := by
  cases s with
  | nil => simpa [find] using h
  | cons a s => simp [find, h, Option.orElse]

theorem lit_chunk (x : Char) (c : List Char) (h1 : 1 ≤ c.length)
    (h2 : ∀ h, some 1 = some h → c.length ≤ h) (h3 : ∀ y ∈ c, (y == x) = true) : c = [x] := by
  have hlen : c.length ≤ 1 := h2 1 rfl
  match c, h1, hlen, h3 with
  | [y], _, _, h3 =>
    have := h3 y (List.mem_singleton.mpr rfl)
    simp only [beq_iff_eq] at this
    rw [this]

theorem Parses.lit_elim {x : Char} {rest : List Inst} {s : List Char} {chunks : List (List Char)}
    (h : Parses (lit x :: rest) s chunks) :
    ∃ tail cs, chunks = [x] :: cs ∧ s = x :: tail ∧ Parses rest tail cs := by
  obtain ⟨c, tail, cs, rfl, rfl, h1, h2, h3, hrest⟩ := h
  rw [lit_chunk x c h1 h2 h3]
  exact ⟨tail, cs, rfl, rfl, hrest⟩

theorem Parses.one_elim {cls : Char → Bool} {rest : List Inst} {s : List Char}
    {chunks : List (List Char)} (h : Parses (one cls :: rest) s chunks) :
    ∃ x tail cs, chunks = [x] :: cs ∧ s = x :: tail ∧ cls x = true ∧ Parses rest tail cs := by
  obtain ⟨c, tail, cs, rfl, rfl, h1, h2, h3, hrest⟩ := h
  have hlen : c.length ≤ 1 := h2 1 rfl
  match c, h1, hlen, h3 with
  | [y], _, _, h3 => exact ⟨y, tail, cs, rfl, rfl, h3 y (List.mem_singleton.mpr rfl), hrest⟩

theorem Parses.exactly_elim {n : Nat} {cls : Char → Bool} {rest : List Inst} {s : List Char}
    {chunks : List (List Char)} (h : Parses (exactly n cls :: rest) s chunks) :
    ∃ c tail cs, chunks = c :: cs ∧ s = c ++ tail ∧ c.length = n ∧ (∀ x ∈ c, cls x = true) ∧
      Parses rest tail cs := by
  obtain ⟨c, tail, cs, rfl, rfl, h1, h2, h3, hrest⟩ := h
  exact ⟨c, tail, cs, rfl, rfl, Nat.le_antisymm (h2 n rfl) h1, h3, hrest⟩

theorem Parses.star_elim {cls : Char → Bool} {rest : List Inst} {s : List Char}
    {chunks : List (List Char)} (h : Parses (star cls :: rest) s chunks) :
    ∃ c tail cs, chunks = c :: cs ∧ s = c ++ tail ∧ (∀ x ∈ c, cls x = true) ∧
      Parses rest tail cs := by
  obtain ⟨c, tail, cs, rfl, rfl, _, _, h3, hrest⟩ := h
  exact ⟨c, tail, cs, rfl, rfl, h3, hrest⟩

theorem Parses.plus_elim {cls : Char → Bool} {rest : List Inst} {s : List Char}
    {chunks : List (List Char)} (h : Parses (plus cls :: rest) s chunks) :
    ∃ c tail cs, chunks = c :: cs ∧ s = c ++ tail ∧ c ≠ [] ∧ (∀ x ∈ c, cls x = true) ∧
      Parses rest tail cs := by
  obtain ⟨c, tail, cs, rfl, rfl, h1, _, h3, hrest⟩ := h
  refine ⟨c, tail, cs, rfl, rfl, ?_, h3, hrest⟩
  intro hc
  rw [hc] at h1
  exact absurd h1 (by decide)

theorem Parses.cap_elim {slot : Nat} {rest : List Inst} {s : List Char}
    {chunks : List (List Char)} (h : Parses (.cap slot :: rest) s chunks) :
    ∃ cs, chunks = [] :: cs ∧ Parses rest s cs := h

theorem Parses.eot_elim {rest : List Inst} {s : List Char}
    {chunks : List (List Char)} (h : Parses (.eot :: rest) s chunks) :
    s = [] ∧ ∃ cs, chunks = [] :: cs ∧ Parses rest [] cs := h

/-- A pattern that ends in a literal and `$` matches only text that ends in the literal. -/
theorem Parses.last_literal (x : Char) (prog : List Inst) (s : List Char)
    (chunks : List (List Char)) (h : Parses (prog ++ [lit x, .eot]) s chunks) :
    ∃ front, s = front ++ [x] := by
  induction prog generalizing s chunks with
  | nil =>
    obtain ⟨tail, cs, _, rfl, h1⟩ := Parses.lit_elim h
    obtain ⟨rfl, _⟩ := Parses.eot_elim h1
    exact ⟨[], rfl⟩
  | cons inst rest ih =>
    cases inst with
    | rpt lo hi cls =>
      obtain ⟨c, tail, cs, _, rfl, _, _, _, hrest⟩ := h
      obtain ⟨front, rfl⟩ := ih _ _ hrest
      exact ⟨c ++ front, by simp⟩
    | cap slot =>
      obtain ⟨cs, _, hrest⟩ := h
      exact ih _ _ hrest
    | eot =>
      obtain ⟨rfl, cs, _, hrest⟩ := h
      exact ih _ _ hrest

theorem find_none_of_last (x y : Char) (hxy : x ≠ y) (prog : List Inst) (q : List Char) :
    find (prog ++ [lit x, .eot]) (q ++ [y]) = none := by
  cases hf : find (prog ++ [lit x, .eot]) (q ++ [y]) with
  | none => rfl
  | some chunks =>
    obtain ⟨pre, suf, hs, hp⟩ := find_sound _ _ _ hf
    obtain ⟨front, rfl⟩ := Parses.last_literal x prog suf chunks hp
    rw [← List.append_assoc] at hs
    have := (List.append_inj' hs rfl).2
    simp only [List.cons.injEq, and_true] at this
    exact absurd this.symm hxy

end Matcher

/-! ## Routing -/

section Routing

/-- The leading `/([^/]*)/` of both patterns. -/
theorem parse_topic_dir {rest : List Inst} {s : List Char} {chunks : List (List Char)}
    (h : Parses (lit '/' :: .cap 2 :: star (notChar '/') :: .cap 3 :: lit '/' :: rest) s chunks) :
    ∃ g1 tail cs, s = '/' :: (g1 ++ '/' :: tail) ∧
      chunks = ['/'] :: [] :: g1 :: [] :: ['/'] :: cs ∧
      (∀ c ∈ g1, notChar '/' c = true) ∧ Parses rest tail cs := by
  obtain ⟨t0, cs0, rfl, rfl, h1⟩ := Parses.lit_elim h
  obtain ⟨cs1, rfl, h2⟩ := Parses.cap_elim h1
  obtain ⟨g1, t2, cs2, rfl, rfl, hg1, h3⟩ := Parses.star_elim h2
  obtain ⟨cs3, rfl, h4⟩ := Parses.cap_elim h3
  obtain ⟨t4, cs4, rfl, rfl, h5⟩ := Parses.lit_elim h4
  exact ⟨g1, t4, cs4, rfl, rfl, hg1, h5⟩

/-- The year and month of `(\d{4}-\d{2}-\d{2})/`. -/
theorem parse_year_month {rest : List Inst} {s : List Char} {chunks : List (List Char)}
    (h : Parses (.cap 4 :: exactly 4 digit :: lit '-' :: exactly 2 digit :: lit '-' :: rest)
      s chunks) :
    ∃ yr mo tail cs, s = yr ++ '-' :: (mo ++ '-' :: tail) ∧
      chunks = [] :: yr :: ['-'] :: mo :: ['-'] :: cs ∧ Parses rest tail cs := by
  obtain ⟨cs0, rfl, h1⟩ := Parses.cap_elim h
  obtain ⟨yr, t1, cs1, rfl, rfl, _, _, h2⟩ := Parses.exactly_elim h1
  obtain ⟨t2, cs2, rfl, rfl, h3⟩ := Parses.lit_elim h2
  obtain ⟨mo, t3, cs3, rfl, rfl, _, _, h4⟩ := Parses.exactly_elim h3
  obtain ⟨t4, cs4, rfl, rfl, h5⟩ := Parses.lit_elim h4
  exact ⟨yr, mo, t4, cs4, rfl, rfl, h5⟩

/-- The day of `(\d{4}-\d{2}-\d{2})/`, up to the opening of group 3. -/
theorem parse_day {rest : List Inst} {s : List Char} {chunks : List (List Char)}
    (h : Parses (exactly 2 digit :: .cap 5 :: lit '/' :: .cap 6 :: rest) s chunks) :
    ∃ dy tail cs, s = dy ++ '/' :: tail ∧ chunks = dy :: [] :: ['/'] :: [] :: cs ∧
      Parses rest tail cs := by
  obtain ⟨dy, t0, cs0, rfl, rfl, _, _, h1⟩ := Parses.exactly_elim h
  obtain ⟨cs1, rfl, h2⟩ := Parses.cap_elim h1
  obtain ⟨t2, cs2, rfl, rfl, h3⟩ := Parses.lit_elim h2
  obtain ⟨cs3, rfl, h4⟩ := Parses.cap_elim h3
  exact ⟨dy, t2, cs3, rfl, rfl, h4⟩

/-- The part `\d{33})-(.+)-` of `generalFile`. -/
theorem parse_id_uuid {rest : List Inst} {s : List Char} {chunks : List (List Char)}
    (h : Parses (exactly 33 digit :: .cap 7 :: lit '-' :: .cap 8 :: plus dot :: .cap 9 ::
      lit '-' :: rest) s chunks) :
    ∃ id g4 tail cs, s = id ++ '-' :: (g4 ++ '-' :: tail) ∧
      chunks = id :: [] :: ['-'] :: [] :: g4 :: [] :: ['-'] :: cs ∧ Parses rest tail cs := by
  obtain ⟨id, t0, cs0, rfl, rfl, _, _, h1⟩ := Parses.exactly_elim h
  obtain ⟨cs1, rfl, h2⟩ := Parses.cap_elim h1
  obtain ⟨t2, cs2, rfl, rfl, h3⟩ := Parses.lit_elim h2
  obtain ⟨cs3, rfl, h4⟩ := Parses.cap_elim h3
  obtain ⟨g4, t4, cs4, rfl, rfl, _, _, h5⟩ := Parses.plus_elim h4
  obtain ⟨cs5, rfl, h6⟩ := Parses.cap_elim h5
  obtain ⟨t6, cs6, rfl, rfl, h7⟩ := Parses.lit_elim h6
  exact ⟨id, g4, t6, cs6, rfl, rfl, h7⟩

/-- The part `([^-]+)-([^-]+)` of `generalFile`. -/
theorem parse_node_ext {rest : List Inst} {s : List Char} {chunks : List (List Char)}
    (h : Parses (.cap 10 :: plus (notChar '-') :: .cap 11 :: lit '-' :: .cap 12 ::
      plus (notChar '-') :: .cap 13 :: rest) s chunks) :
    ∃ g5 g6 tail cs, s = g5 ++ '-' :: (g6 ++ tail) ∧
      chunks = [] :: g5 :: [] :: ['-'] :: [] :: g6 :: [] :: cs ∧
      (∀ c ∈ g5, notChar '-' c = true) ∧ (∀ c ∈ g6, notChar '-' c = true) ∧
      Parses rest tail cs := by
  obtain ⟨cs0, rfl, h1⟩ := Parses.cap_elim h
  obtain ⟨g5, t1, cs1, rfl, rfl, _, hg5, h2⟩ := Parses.plus_elim h1
  obtain ⟨cs2, rfl, h3⟩ := Parses.cap_elim h2
  obtain ⟨t3, cs3, rfl, rfl, h4⟩ := Parses.lit_elim h3
  obtain ⟨cs4, rfl, h5⟩ := Parses.cap_elim h4
  obtain ⟨g6, t5, cs5, rfl, rfl, _, hg6, h6⟩ := Parses.plus_elim h5
  obtain ⟨cs6, rfl, h7⟩ := Parses.cap_elim h6
  exact ⟨g5, g6, t5, cs6, rfl, rfl, hg5, hg6, h7⟩

/-- The closing `.ndjson$` of `generalFile`. -/
theorem parse_ndjson {s : List Char} {chunks : List (List Char)}
    (h : Parses [one dot, lit 'n', lit 'd', lit 'j', lit 's', lit 'o', lit 'n', .eot] s chunks) :
    ∃ x, s = [x, 'n', 'd', 'j', 's', 'o', 'n'] ∧
      chunks = [[x], ['n'], ['d'], ['j'], ['s'], ['o'], ['n'], []] := by
  obtain ⟨x, t0, cs0, rfl, rfl, _, h1⟩ := Parses.one_elim h
  obtain ⟨t1, cs1, rfl, rfl, h2⟩ := Parses.lit_elim h1
  obtain ⟨t2, cs2, rfl, rfl, h3⟩ := Parses.lit_elim h2
  obtain ⟨t3, cs3, rfl, rfl, h4⟩ := Parses.lit_elim h3
  obtain ⟨t4, cs4, rfl, rfl, h5⟩ := Parses.lit_elim h4
  obtain ⟨t5, cs5, rfl, rfl, h6⟩ := Parses.lit_elim h5
  obtain ⟨t6, cs6, rfl, rfl, h7⟩ := Parses.lit_elim h6
  obtain ⟨rfl, cs7, rfl, h8⟩ := Parses.eot_elim h7
  rw [show cs7 = [] from h8]
  exact ⟨x, rfl, rfl⟩

/-- What a match of `generalFile` looks like from its two ends. -/
theorem generalFile_parse (s : List Char) (chunks : List (List Char))
    (h : Parses generalFile s chunks) :
    ∃ g1 rest1 front g5 g6 x,
      s = '/' :: (g1 ++ '/' :: rest1) ∧ (∀ c ∈ g1, notChar '/' c = true) ∧
      s = front ++ ('-' :: (g5 ++ '-' :: (g6 ++ [x, 'n', 'd', 'j', 's', 'o', 'n']))) ∧
      (∀ c ∈ g5, notChar '-' c = true) ∧ (∀ c ∈ g6, notChar '-' c = true) ∧
      submatch generalFile chunks 1 = String.mk g1 ∧
      submatch generalFile chunks 5 = String.mk g5 := by
  simp only [generalFile, datedDir, List.cons_append, List.nil_append] at h
  obtain ⟨g1, t1, cs1, rfl, rfl, hg1, h1⟩ := parse_topic_dir h
  obtain ⟨yr, mo, t2, cs2, rfl, rfl, h2⟩ := parse_year_month h1
  obtain ⟨dy, t3, cs3, rfl, rfl, h3⟩ := parse_day h2
  obtain ⟨id, g4, t4, cs4, rfl, rfl, h4⟩ := parse_id_uuid h3
  obtain ⟨g5, g6, t5, cs5, rfl, rfl, hg5, hg6, h5⟩ := parse_node_ext h4
  obtain ⟨x, rfl, rfl⟩ := parse_ndjson h5
  refine ⟨g1, _, '/' :: (g1 ++ '/' :: (yr ++ '-' :: (mo ++ '-' :: (dy ++ '/' :: (id ++ '-' :: g4))))),
    g5, g6, x, rfl, hg1, by simp, hg5, hg6, ?_, ?_⟩
  · simp [submatch, generalFile, datedDir, lit, one, exactly, star, plus, Inst.isCap]
  · simp [submatch, generalFile, datedDir, lit, one, exactly, star, plus, Inst.isCap]

theorem Parses.lit_intro (x : Char) {rest : List Inst} {tail : List Char} {cs : List (List Char)}
    (h : Parses rest tail cs) : Parses (lit x :: rest) (x :: tail) ([x] :: cs) :=
  ⟨[x], tail, cs, rfl, rfl, by simp, by simp, by simp, h⟩

theorem Parses.one_intro (cls : Char → Bool) (x : Char) {rest : List Inst} {tail : List Char}
    {cs : List (List Char)} (hx : cls x = true) (h : Parses rest tail cs) :
    Parses (one cls :: rest) (x :: tail) ([x] :: cs) :=
  ⟨[x], tail, cs, rfl, rfl, by simp, by simp, by simpa using hx, h⟩

theorem Parses.exactly_intro (n : Nat) (cls : Char → Bool) (c : List Char) {rest : List Inst}
    {tail : List Char} {cs : List (List Char)} (hlen : c.length = n)
    (hc : ∀ x ∈ c, cls x = true) (h : Parses rest tail cs) :
    Parses (exactly n cls :: rest) (c ++ tail) (c :: cs) :=
  ⟨c, tail, cs, rfl, rfl, by omega, by intro k hk; cases hk; omega, hc, h⟩

theorem Parses.star_intro (cls : Char → Bool) (c : List Char) {rest : List Inst}
    {tail : List Char} {cs : List (List Char)}
    (hc : ∀ x ∈ c, cls x = true) (h : Parses rest tail cs) :
    Parses (star cls :: rest) (c ++ tail) (c :: cs) :=
  ⟨c, tail, cs, rfl, rfl, by omega, (by intro k hk; cases hk), hc, h⟩

theorem Parses.plus_intro (cls : Char → Bool) (c : List Char) {rest : List Inst}
    {tail : List Char} {cs : List (List Char)} (hne : c ≠ [])
    (hc : ∀ x ∈ c, cls x = true) (h : Parses rest tail cs) :
    Parses (plus cls :: rest) (c ++ tail) (c :: cs) :=
  ⟨c, tail, cs, rfl, rfl, List.length_pos.mpr hne, (by intro k hk; cases hk), hc, h⟩

theorem Parses.cap_intro (slot : Nat) {rest : List Inst} {s : List Char} {cs : List (List Char)}
    (h : Parses rest s cs) : Parses (.cap slot :: rest) s ([] :: cs) :=
  ⟨cs, rfl, h⟩

theorem Parses.eot_intro {rest : List Inst} {cs : List (List Char)}
    (h : Parses rest [] cs) : Parses (.eot :: rest) [] ([] :: cs) :=
  ⟨rfl, cs, rfl, h⟩

theorem notChar_of_not_mem (x : Char) (c : List Char) (h : x ∉ c) :
    ∀ y ∈ c, notChar x y = true := by
  intro y hy
  simp only [notChar, bne_iff_ne, ne_eq]
  rintro rfl
  exact h hy

theorem not_mem_of_notChar (x : Char) (c : List Char) (h : ∀ y ∈ c, notChar x y = true) :
    x ∉ c := by
  intro hx
  have := h x hx
  simp [notChar] at this

theorem GeneralPath.general_path_data (g : GeneralPath) :
    g.path.data = '/' :: (g.topic.data ++ '/' :: (g.year.data ++ '-' :: (g.month.data ++ '-' ::
      (g.day.data ++ '/' :: (g.id.data ++ '-' :: (g.uuid.data ++ '-' :: (g.node.data ++ '-' ::
      (g.ext.data ++ ['.', 'n', 'd', 'j', 's', 'o', 'n'])))))))) := by
  simp [GeneralPath.path, String.data_append]

/-- A well-formed general data file path matches `generalFile` from its first
character on. -/
theorem GeneralPath.parses (g : GeneralPath) (hwf : g.WellFormed) :
    ∃ chunks, Parses generalFile g.path.data chunks := by
  obtain ⟨ht, hy, hm, hd, hid, hu, hun, hn, hnn, he, hen⟩ := hwf
  rw [g.general_path_data]
  simp only [generalFile, datedDir, List.cons_append, List.nil_append]
  exact ⟨_, Parses.lit_intro _ (Parses.cap_intro _ (Parses.star_intro _ _ (notChar_of_not_mem _ _ ht)
    (Parses.cap_intro _ (Parses.lit_intro _ (Parses.cap_intro _
    (Parses.exactly_intro _ _ _ hy.1 hy.2 (Parses.lit_intro _
    (Parses.exactly_intro _ _ _ hm.1 hm.2 (Parses.lit_intro _
    (Parses.exactly_intro _ _ _ hd.1 hd.2 (Parses.cap_intro _ (Parses.lit_intro _
    (Parses.cap_intro _ (Parses.exactly_intro _ _ _ hid.1 hid.2 (Parses.cap_intro _
    (Parses.lit_intro _ (Parses.cap_intro _
    (Parses.plus_intro _ _ hu (notChar_of_not_mem _ _ hun) (Parses.cap_intro _
    (Parses.lit_intro _ (Parses.cap_intro _
    (Parses.plus_intro _ _ hn (notChar_of_not_mem _ _ hnn) (Parses.cap_intro _
    (Parses.lit_intro _ (Parses.cap_intro _
    (Parses.plus_intro _ _ he (notChar_of_not_mem _ _ hen) (Parses.cap_intro _
    (Parses.one_intro _ _ (by decide) (Parses.lit_intro _ (Parses.lit_intro _
    (Parses.lit_intro _ (Parses.lit_intro _ (Parses.lit_intro _ (Parses.lit_intro _
    (Parses.eot_intro rfl)))))))))))))))))))))))))))))))))))⟩

theorem split_first (x : Char) (a b r r1 : List Char) (ha : x ∉ a) (hb : x ∉ b)
    (h : a ++ x :: r = b ++ x :: r1) : a = b ∧ r = r1 := by
  induction a generalizing b with
  | nil =>
    cases b with
    | nil => simpa using h
    | cons y b =>
      simp only [List.nil_append, List.cons_append, List.cons.injEq] at h
      exact absurd (h.1 ▸ List.mem_cons_self _ _) hb
  | cons z a ih =>
    cases b with
    | nil =>
      simp only [List.nil_append, List.cons_append, List.cons.injEq] at h
      exact absurd (h.1 ▸ List.mem_cons_self _ _) ha
    | cons y b =>
      simp only [List.cons_append, List.cons.injEq] at h
      obtain ⟨h1, h2⟩ := ih b (fun hx => ha (List.mem_cons_of_mem _ hx))
        (fun hx => hb (List.mem_cons_of_mem _ hx)) h.2
      exact ⟨by rw [h.1, h1], h2⟩

theorem split_last (x : Char) (a b r r1 : List Char) (ha : x ∉ a) (hb : x ∉ b)
    (h : r ++ x :: a = r1 ++ x :: b) : r = r1 ∧ a = b := by
  have hrev := congrArg List.reverse h
  simp only [List.reverse_append, List.reverse_cons, List.append_assoc, List.singleton_append]
    at hrev
  obtain ⟨h1, h2⟩ := split_first x a.reverse b.reverse r.reverse r1.reverse
    (by simpa using ha) (by simpa using hb) hrev
  exact ⟨List.reverse_injective h2, List.reverse_injective h1⟩

/-- The two segments before the closing `.ndjson` are read off a path from its end. -/
theorem tail_unique (a b node ext g5 g6 w : List Char) (x y : Char)
    (hn : '-' ∉ node) (he : '-' ∉ ext) (h5 : '-' ∉ g5) (h6 : '-' ∉ g6)
    (h : a ++ '-' :: (node ++ '-' :: (ext ++ x :: w)) = b ++ '-' :: (g5 ++ '-' :: (g6 ++ y :: w))) :
    node = g5 := by
  have h1 : ((a ++ '-' :: node) ++ '-' :: ext) ++ x :: w = ((b ++ '-' :: g5) ++ '-' :: g6) ++ y :: w := by
    simpa [List.append_assoc] using h
  have h2 := (List.append_inj' h1 (by simp)).1
  have h3 := (split_last '-' ext g6 _ _ he h6 h2).1
  exact (split_last '-' node g5 _ _ hn h5 h3).2

theorem resolvedFile_none_of_last (y : Char) (hy : 'D' ≠ y) (q : List Char) :
    find resolvedFile (q ++ [y]) = none :=
  find_none_of_last 'D' y hy
    (datedDir ++ [.cap 6, one digit, lit '{', lit '3', lit '3', .cap 7,
      one dot, lit 'R', lit 'E', lit 'S', lit 'O', lit 'L', lit 'V', lit 'E']) q

theorem generalFile_none_of_last (y : Char) (hy : 'n' ≠ y) (q : List Char) :
    find generalFile (q ++ [y]) = none :=
  find_none_of_last 'n' y hy
    (datedDir ++ [.cap 6, exactly 33 digit, .cap 7, lit '-', .cap 8, plus dot, .cap 9, lit '-',
      .cap 10, plus (notChar '-'), .cap 11, lit '-', .cap 12, plus (notChar '-'), .cap 13,
      one dot, lit 'n', lit 'd', lit 'j', lit 's', lit 'o']) q

theorem route_of_general (path : String) (chunks : List (List Char))
    (h1 : find resolvedFile path.data = none) (h2 : find generalFile path.data = some chunks) :
    route path = some (submatch generalFile chunks 1, submatch generalFile chunks 5) := by
  simp [route, findStringSubmatch, h1, h2]

/-- Behind any leading text, a well-formed general data file path is matched by
`generalFile`, and group 5 of the match is the node segment. -/
theorem find_generalFile_suffix (pre : List Char) (g : GeneralPath) (hwf : g.WellFormed) :
    ∃ chunks, find generalFile (pre ++ g.path.data) = some chunks ∧
      submatch generalFile chunks 5 = g.node := by
  obtain ⟨chunks0, hp0⟩ := g.parses hwf
  obtain ⟨chunks, hf⟩ := Option.isSome_iff_exists.mp (find_complete generalFile pre _ _ hp0)
  obtain ⟨pre1, suf, hs, hp⟩ := find_sound _ _ _ hf
  obtain ⟨g1, rest1, front, g5, g6, x, _, _, hs2, hg5, hg6, _, hsub5⟩ :=
    generalFile_parse suf chunks hp
  refine ⟨chunks, hf, ?_⟩
  rw [hsub5]
  obtain ⟨_, _, _, _, _, _, _, _, hnn, _, hen⟩ := hwf
  rw [g.general_path_data, hs2] at hs
  have key := tail_unique
    (pre ++ '/' :: (g.topic.data ++ '/' :: (g.year.data ++ '-' :: (g.month.data ++ '-' ::
      (g.day.data ++ '/' :: (g.id.data ++ '-' :: g.uuid.data))))))
    (pre1 ++ front) g.node.data g.ext.data g5 g6 ['n', 'd', 'j', 's', 'o', 'n'] '.' x
    hnn hen (not_mem_of_notChar _ _ hg5) (not_mem_of_notChar _ _ hg6)
    (by simpa [List.append_assoc] using hs)
  rw [← key]

/-- A well-formed general data file path is matched by `generalFile` from its
first character on; group 1 of the match is the topic segment and group 5 the node
segment. -/
theorem find_generalFile_path (g : GeneralPath) (hwf : g.WellFormed) :
    ∃ chunks, find generalFile g.path.data = some chunks ∧
      submatch generalFile chunks 1 = g.topic ∧ submatch generalFile chunks 5 = g.node := by
  obtain ⟨chunks0, hp0⟩ := g.parses hwf
  obtain ⟨chunks, hm⟩ := Option.isSome_iff_exists.mp (matchHere_complete generalFile _ _ hp0)
  have hf := find_of_matchHere _ _ _ hm
  obtain ⟨chunks1, hf1, hnode⟩ := find_generalFile_suffix [] g hwf
  rw [List.nil_append, hf] at hf1
  cases hf1
  obtain ⟨g1, rest1, front, g5, g6, x, hs1, hg1, _, _, _, hsub1, _⟩ :=
    generalFile_parse _ chunks (matchHere_sound _ _ _ hm)
  refine ⟨chunks, hf, ?_, hnode⟩
  rw [hsub1]
  rw [g.general_path_data] at hs1
  simp only [List.cons.injEq, true_and] at hs1
  have := (split_first '/' g.topic.data g1 _ _ hwf.1 (not_mem_of_notChar _ _ hg1) hs1).1
  rw [← this]

theorem GeneralPath.path_last (g : GeneralPath) : ∃ q, g.path.data = q ++ ['n'] :=
  ⟨'/' :: (g.topic.data ++ '/' :: (g.year.data ++ '-' :: (g.month.data ++ '-' ::
      (g.day.data ++ '/' :: (g.id.data ++ '-' :: (g.uuid.data ++ '-' :: (g.node.data ++ '-' ::
      (g.ext.data ++ ['.', 'n', 'd', 'j', 's', 'o'])))))))), by simp [g.general_path_data]⟩

/-- The router on a well-formed general data file path: the topic segment and the
node segment. -/
theorem route_generalPath (g : GeneralPath) (hwf : g.WellFormed) :
    route g.path = some (g.topic, g.node) := by
  obtain ⟨q, hq⟩ := g.path_last
  obtain ⟨chunks, hf, h1, h5⟩ := find_generalFile_path g hwf
  have hr : find resolvedFile g.path.data = none := by
    rw [hq]
    exact resolvedFile_none_of_last 'n' (by decide) q
  rw [route_of_general g.path chunks hr hf, h1, h5]

/-- The router on a well-formed general data file path behind any leading text:
it matches, and the table is the node segment. -/
theorem route_prefixed_generalPath (pre : String) (g : GeneralPath) (hwf : g.WellFormed) :
    ∃ topic, route (pre ++ g.path) = some (topic, g.node) := by
  obtain ⟨q, hq⟩ := g.path_last
  obtain ⟨chunks, hf, h5⟩ := find_generalFile_suffix pre.data g hwf
  have hr : find resolvedFile (pre ++ g.path).data = none := by
    rw [String.data_append, hq, ← List.append_assoc]
    exact resolvedFile_none_of_last 'n' (by decide) _
  rw [← String.data_append] at hf
  exact ⟨_, by rw [route_of_general _ chunks hr hf, h5]⟩

theorem find_isSome_iff (prog : List Inst) (s : List Char) :
    (find prog s).isSome = true ↔
      ∃ pre suf, s = pre ++ suf ∧ (matchHere prog suf).isSome = true := by
  constructor
  · intro h
    obtain ⟨chunks, hf⟩ := Option.isSome_iff_exists.mp h
    obtain ⟨pre, suf, hs, hp⟩ := find_sound _ _ _ hf
    exact ⟨pre, suf, hs, matchHere_complete _ _ _ hp⟩
  · rintro ⟨pre, suf, rfl, hm⟩
    obtain ⟨chunks, hc⟩ := Option.isSome_iff_exists.mp hm
    exact find_complete _ _ _ _ (matchHere_sound _ _ _ hc)

theorem route_isSome_iff (path : String) :
    (route path).isSome = true ↔
      (find resolvedFile path.data).isSome = true ∨ (find generalFile path.data).isSome = true := by
  unfold route findStringSubmatch
  cases find resolvedFile path.data <;> cases find generalFile path.data <;> simp

/-- The part `\d{33)` of `resolvedFile`: a digit and the text `{33`. -/
theorem parse_digit_brace {rest : List Inst} {s : List Char} {chunks : List (List Char)}
    (h : Parses (one digit :: lit '{' :: lit '3' :: lit '3' :: .cap 7 :: rest) s chunks) :
    ∃ d tail cs, s = d :: '{' :: '3' :: '3' :: tail ∧ Parses rest tail cs := by
  obtain ⟨d, t0, cs0, rfl, rfl, _, h1⟩ := Parses.one_elim h
  obtain ⟨t1, cs1, rfl, rfl, h2⟩ := Parses.lit_elim h1
  obtain ⟨t2, cs2, rfl, rfl, h3⟩ := Parses.lit_elim h2
  obtain ⟨t3, cs3, rfl, rfl, h4⟩ := Parses.lit_elim h3
  obtain ⟨cs4, rfl, h5⟩ := Parses.cap_elim h4
  exact ⟨d, t3, cs4, rfl, h5⟩

/-- The closing `.RESOLVED$` of `resolvedFile`. -/
theorem parse_resolved {s : List Char} {chunks : List (List Char)}
    (h : Parses [one dot, lit 'R', lit 'E', lit 'S', lit 'O', lit 'L', lit 'V', lit 'E', lit 'D',
      .eot] s chunks) :
    ∃ x, s = [x, 'R', 'E', 'S', 'O', 'L', 'V', 'E', 'D'] := by
  obtain ⟨x, t0, cs0, rfl, rfl, _, h1⟩ := Parses.one_elim h
  obtain ⟨t1, cs1, rfl, rfl, h2⟩ := Parses.lit_elim h1
  obtain ⟨t2, cs2, rfl, rfl, h3⟩ := Parses.lit_elim h2
  obtain ⟨t3, cs3, rfl, rfl, h4⟩ := Parses.lit_elim h3
  obtain ⟨t4, cs4, rfl, rfl, h5⟩ := Parses.lit_elim h4
  obtain ⟨t5, cs5, rfl, rfl, h6⟩ := Parses.lit_elim h5
  obtain ⟨t6, cs6, rfl, rfl, h7⟩ := Parses.lit_elim h6
  obtain ⟨t7, cs7, rfl, rfl, h8⟩ := Parses.lit_elim h7
  obtain ⟨t8, cs8, rfl, rfl, h9⟩ := Parses.lit_elim h8
  obtain ⟨rfl, _⟩ := Parses.eot_elim h9
  exact ⟨x, rfl⟩

/-- What a match of `resolvedFile` looks like from its end: the brace of `\d{33)`
is part of the text. -/
theorem resolvedFile_parse (s : List Char) (chunks : List (List Char))
    (h : Parses resolvedFile s chunks) :
    ∃ front x, s = front ++ ['{', '3', '3', x, 'R', 'E', 'S', 'O', 'L', 'V', 'E', 'D'] := by
  simp only [resolvedFile, datedDir, List.cons_append, List.nil_append] at h
  obtain ⟨g1, t1, cs1, rfl, rfl, _, h1⟩ := parse_topic_dir h
  obtain ⟨yr, mo, t2, cs2, rfl, rfl, h2⟩ := parse_year_month h1
  obtain ⟨dy, t3, cs3, rfl, rfl, h3⟩ := parse_day h2
  obtain ⟨d, t4, cs4, rfl, h4⟩ := parse_digit_brace h3
  obtain ⟨x, rfl⟩ := parse_resolved h4
  exact ⟨'/' :: (g1 ++ '/' :: (yr ++ '-' :: (mo ++ '-' :: (dy ++ ['/', d])))), x, by simp⟩

theorem ResolvedPath.resolved_path_data (r : ResolvedPath) :
    r.path.data = '/' :: (r.topic.data ++ '/' :: (r.year.data ++ '-' :: (r.month.data ++ '-' ::
      (r.day.data ++ '/' :: (r.id.data ++ ['.', 'R', 'E', 'S', 'O', 'L', 'V', 'E', 'D']))))) := by
  simp [ResolvedPath.path, String.data_append]

/-- Texts of at least three characters end in three characters. -/
theorem last_three (l : List Char) (h : 3 ≤ l.length) : ∃ m a b c, l = m ++ [a, b, c] := by
  have hd : (l.drop (l.length - 3)).length = 3 := by
    rw [List.length_drop]
    omega
  match hl : l.drop (l.length - 3), hd with
  | [a, b, c], _ => exact ⟨l.take (l.length - 3), a, b, c, by rw [← hl, List.take_append_drop]⟩

/-- No well-formed resolved-timestamp marker path is matched by the router. -/
theorem route_resolvedPath (r : ResolvedPath) (hwf : r.WellFormed) : route r.path = none := by
  have hg : find generalFile r.path.data = none := by
    have : r.path.data = ('/' :: (r.topic.data ++ '/' :: (r.year.data ++ '-' :: (r.month.data ++
        '-' :: (r.day.data ++ '/' :: (r.id.data ++ ['.', 'R', 'E', 'S', 'O', 'L', 'V', 'E'])))))) ++
        ['D'] := by simp [r.resolved_path_data]
    rw [this]
    exact generalFile_none_of_last 'D' (by decide) _
  have hr : find resolvedFile r.path.data = none := by
    cases hf : find resolvedFile r.path.data with
    | none => rfl
    | some chunks =>
      exfalso
      obtain ⟨pre, suf, hs, hp⟩ := find_sound _ _ _ hf
      obtain ⟨front, x, rfl⟩ := resolvedFile_parse suf chunks hp
      obtain ⟨_, _, _, _, hlen, hdig⟩ := hwf
      obtain ⟨m, a, b, c, hid⟩ := last_three r.id.data (by omega)
      rw [r.resolved_path_data, hid] at hs
      have h1 : ('/' :: (r.topic.data ++ '/' :: (r.year.data ++ '-' :: (r.month.data ++ '-' ::
          (r.day.data ++ '/' :: m))))) ++ [a, b, c, '.', 'R', 'E', 'S', 'O', 'L', 'V', 'E', 'D'] =
          (pre ++ front) ++ ['{', '3', '3', x, 'R', 'E', 'S', 'O', 'L', 'V', 'E', 'D'] := by
        simpa [List.append_assoc] using hs
      have h2 := (List.append_inj' h1 rfl).2
      simp only [List.cons.injEq] at h2
      have ha : digit a = true := hdig a (by rw [hid]; simp)
      rw [h2.1] at ha
      exact absurd ha (by decide)
  simp [route, findStringSubmatch, hg, hr]

/-- C4 fails on the code: the well-formed resolved-timestamp marker path
`sampleMarker` is matched by neither pattern, and the handler answers 404. -/
theorem http_resolved_marker_not_found :
    sampleMarker.WellFormed ∧ route sampleMarker.path = none ∧
    (http steadyBroker (New []) ⟨[], 0⟩ ⟨sampleMarker.path, [], [], true⟩).events = [.writeHeader 404] ∧
    route "/t/2020-01-01/0\x7b33.RESOLVED" = some ("t", "RESOLVED") :=
  ⟨by decide, rfl, rfl, rfl⟩

/-- C6 as stated fails: a path with leading text before a general data file path
is matched by the router, though neither pattern matches the path from its first
character on. -/
theorem route_matches_behind_junk :
    route ("/junk/extra" ++ (sampleFile "n").path) = some ("t", "n") ∧
    matchHere resolvedFile ("/junk/extra" ++ (sampleFile "n").path).data = none ∧
    matchHere generalFile ("/junk/extra" ++ (sampleFile "n").path).data = none :=
  ⟨rfl, rfl, rfl⟩

/-- C6, amended: the router's patterns are anchored at the end of the path only.
The router matches a path exactly when one of the two patterns matches some suffix
of the path, from the first character of the suffix to the last character of the
path; and every path that ends in a well-formed general data file path, whatever
text comes before it, is matched, with the node segment as the table. -/
theorem route_anchored_at_end :
    (∀ path : String, (route path).isSome = true ↔
      ∃ pre suf, path.data = pre ++ suf ∧
        ((matchHere resolvedFile suf).isSome = true ∨ (matchHere generalFile suf).isSome = true)) ∧
    (∀ (pre : String) (g : GeneralPath), g.WellFormed →
      ∃ topic, route (pre ++ g.path) = some (topic, g.node)) := by
  refine ⟨?_, route_prefixed_generalPath⟩
  intro path
  rw [route_isSome_iff, find_isSome_iff, find_isSome_iff]
  constructor
  · rintro (⟨pre, suf, hs, hm⟩ | ⟨pre, suf, hs, hm⟩)
    · exact ⟨pre, suf, hs, Or.inl hm⟩
    · exact ⟨pre, suf, hs, Or.inr hm⟩
  · rintro ⟨pre, suf, hs, hm | hm⟩
    · exact Or.inl ⟨pre, suf, hs, hm⟩
    · exact Or.inr ⟨pre, suf, hs, hm⟩

theorem route_anchored_at_end_witness :
    (sampleFile "n").WellFormed ∧
    ∃ topic, route ("/junk/extra" ++ (sampleFile "n").path) = some (topic, (sampleFile "n").node) :=
  ⟨by decide, route_anchored_at_end.2 "/junk/extra" (sampleFile "n") (by decide)⟩

/-- C7 as stated fails: two well-formed general data file paths that differ only in
their node segment get different tables. -/
theorem route_differs_by_node :
    (sampleFile "a").WellFormed ∧ (sampleFile "b").WellFormed ∧
    route (sampleFile "a").path = some ("t", "a") ∧
    route (sampleFile "b").path = some ("t", "b") ∧
    route (sampleFile "a").path ≠ route (sampleFile "b").path := by
  have ha : route (sampleFile "a").path = some ("t", "a") := rfl
  have hb : route (sampleFile "b").path = some ("t", "b") := rfl
  refine ⟨by decide, by decide, ha, hb, ?_⟩
  rw [ha, hb]
  decide

/-- C7, amended: two well-formed general data file paths that differ only in their
id, uuid or extension segments get the same `(topic, table)` pair from the router,
namely the topic segment and the node segment. -/
theorem route_ignores_id_uuid_ext (g g1 : GeneralPath)
    (hwf : g.WellFormed) (hwf1 : g1.WellFormed)
    (htopic : g1.topic = g.topic) (_hyear : g1.year = g.year) (_hmonth : g1.month = g.month)
    (_hday : g1.day = g.day) (hnode : g1.node = g.node) :
    route g1.path = route g.path ∧ route g.path = some (g.topic, g.node) := by
  rw [route_generalPath g hwf, route_generalPath g1 hwf1, htopic, hnode]
  exact ⟨rfl, rfl⟩

theorem route_ignores_id_uuid_ext_witness :
    (sampleFile "n").WellFormed ∧
    (⟨"t", "2020", "01", "01", "123456789012345678901234567890123", "6f1c-42", "n", "7"⟩ :
      GeneralPath).WellFormed ∧
    (⟨"t", "2020", "01", "01", "123456789012345678901234567890123", "6f1c-42", "n", "7"⟩ :
      GeneralPath).topic = (sampleFile "n").topic ∧
    (⟨"t", "2020", "01", "01", "123456789012345678901234567890123", "6f1c-42", "n", "7"⟩ :
      GeneralPath).node = (sampleFile "n").node ∧
    (route (⟨"t", "2020", "01", "01", "123456789012345678901234567890123", "6f1c-42", "n", "7"⟩ :
      GeneralPath).path = route (sampleFile "n").path ∧
     route (sampleFile "n").path = some ((sampleFile "n").topic, (sampleFile "n").node)) :=
  ⟨by decide, by decide, rfl, rfl,
    route_ignores_id_uuid_ext (sampleFile "n")
      ⟨"t", "2020", "01", "01", "123456789012345678901234567890123", "6f1c-42", "n", "7"⟩
      (by decide) (by decide) rfl rfl rfl rfl rfl⟩

end Routing
end CdcPubsub
